import Mathlib

/-!
Verification of the structural diff engine of the `datadiff` repository
(`libdtf`, file `src/libdtf/src/lib.rs` with the field dispatcher from
`src/libdtf/src/compare_field.rs`).

Modelling conventions:
* `serde_json::Value` is embedded as the mutual inductive family
  `Json` / `JsonList` / `JsonObj`.  An object is its ordered sequence of
  entries (the iteration order of the `serde_json::Map`); JSON numbers are
  modelled as integers (none of the verified claims depends on float
  rendering).
* Rust panics (`unwrap` on a `None`, out-of-range indexing) are modelled by
  `Option`: a function returns `none` exactly when the Rust code panics.
  `debug_assert!` guards are compiled out in release builds and are not
  modelled.
* The `b_keys` working set in `compare_objects` is a `std::collections::HashMap`,
  whose iteration order is unspecified.  It is modelled by an explicit
  reordering parameter `σ : List String → List String` applied to the list of
  keys of `b` that were not consumed by the loop over `a`; a run of the real
  program corresponds to some `σ` that permutes every list.  `id` is the
  canonical instance.
-/

/-- From diff_types.rs: `WorkingFile { name }`. -/
structure WorkingFile where
  name : String
deriving DecidableEq, Repr

/-- From diff_types.rs: `WorkingContext { file_a, file_b }`. -/
structure WorkingContext where
  file_a : WorkingFile
  file_b : WorkingFile
deriving DecidableEq, Repr

/-- From diff_types.rs: `enum ArrayDiffDesc { AHas, AMisses, BHas, BMisses }`. -/
inductive ArrayDiffDesc where
  | aHas
  | aMisses
  | bHas
  | bMisses
deriving DecidableEq, Repr

/-- From diff_types.rs: `KeyDiff { key, has, misses }`. -/
structure KeyDiff where
  key : String
  has : String
  misses : String
deriving DecidableEq, Repr

/-- From diff_types.rs: `TypeDiff { key, type1, type2 }`. -/
structure TypeDiff where
  key : String
  type1 : String
  type2 : String
deriving DecidableEq, Repr

/-- From diff_types.rs: `ValueDiff { key, value1, value2 }`. -/
structure ValueDiff where
  key : String
  value1 : String
  value2 : String
deriving DecidableEq, Repr

/-- From diff_types.rs: `ArrayDiff { key, descriptor, value }`. -/
structure ArrayDiff where
  key : String
  descriptor : ArrayDiffDesc
  value : String
deriving DecidableEq, Repr

/-- From diff_types.rs: `type ComparisionResult = (Vec<KeyDiff>, Vec<TypeDiff>, Vec<ValueDiff>, Vec<ArrayDiff>)`. -/
abbrev ComparisionResult :=
  List KeyDiff × List TypeDiff × List ValueDiff × List ArrayDiff

mutual
/-- `serde_json::Value`, with numbers restricted to integers. -/
inductive Json where
  | null
  | bool (b : Bool)
  | num (n : Int)
  | str (s : String)
  | arr (items : JsonList)
  | obj (entries : JsonObj)
deriving DecidableEq

/-- The element sequence of a JSON array. -/
inductive JsonList where
  | nil
  | cons (hd : Json) (tl : JsonList)
deriving DecidableEq

/-- The ordered entry sequence of a `serde_json::Map<String, Value>`. -/
inductive JsonObj where
  | nil
  | cons (key : String) (value : Json) (tl : JsonObj)
deriving DecidableEq
end

/-- `Map::get`: the value stored under a key (first matching entry). -/
def JsonObj.get : JsonObj → String → Option Json
  | .nil, _ => none
  | .cons k v tl, q => if k = q then some v else tl.get q

/-- The key sequence of an object, in iteration order. -/
def JsonObj.keys : JsonObj → List String
  | .nil => []
  | .cons k _ tl => k :: tl.keys

/-- The entry sequence of an object as a plain list. -/
def JsonObj.toEntries : JsonObj → List (String × Json)
  | .nil => []
  | .cons k v tl => (k, v) :: tl.toEntries

/-- `Vec::len` of an array. -/
def JsonList.length : JsonList → Nat
  | .nil => 0
  | .cons _ tl => 1 + tl.length

/-- The element sequence of an array as a plain list. -/
def JsonList.toList : JsonList → List Json
  | .nil => []
  | .cons x tl => x :: tl.toList

/-- From diff_types.rs: `enum ValueType`. -/
inductive ValueType where
  | null
  | boolean
  | number
  | string
  | array
  | object
deriving DecidableEq, Repr

/-- The `Display` impl of `ValueType` in diff_types.rs. -/
def ValueType.render : ValueType → String
  | .null => "null"
  | .boolean => "bool"
  | .number => "number"
  | .string => "string"
  | .array => "array"
  | .object => "object"

/-- From lib.rs: `get_type`. -/
def get_type : Json → ValueType
  | .null => .null
  | .bool _ => .boolean
  | .num _ => .number
  | .str _ => .string
  | .arr _ => .array
  | .obj _ => .object

/-- One hexadecimal digit, as used by serde_json's `\u00XX` escapes. -/
def hexDigit (n : Nat) : Char :=
  if n < 10 then Char.ofNat (48 + n) else Char.ofNat (87 + n)

/-- serde_json's escaping of a single character inside a JSON string. -/
def escapeChar (c : Char) : String :=
  if c = '"' then "\\\""
  else if c = '\\' then "\\\\"
  else if c = Char.ofNat 8 then "\\b"
  else if c = Char.ofNat 9 then "\\t"
  else if c = Char.ofNat 10 then "\\n"
  else if c = Char.ofNat 12 then "\\f"
  else if c = Char.ofNat 13 then "\\r"
  else if c.toNat < 32 then
    "\\u00" ++ String.singleton (hexDigit (c.toNat / 16))
      ++ String.singleton (hexDigit (c.toNat % 16))
  else String.singleton c

/-- A JSON string literal: quoted and escaped, as serde_json renders it. -/
def escapeString (s : String) : String :=
  "\"" ++ String.join (s.toList.map escapeChar) ++ "\""

mutual
/-- The `Display` impl of `serde_json::Value` (compact JSON text), used by
`value.to_string()` in `handle_different_order_arrays`. -/
def Json.render : Json → String
  | .null => "null"
  | .bool b => toString b
  | .num n => toString n
  | .str s => escapeString s
  | .arr xs => "[" ++ xs.renderItems ++ "]"
  | .obj kvs => "\x7b" ++ kvs.renderEntries ++ "\x7d"

/-- Comma-separated rendering of array elements. -/
def JsonList.renderItems : JsonList → String
  | .nil => ""
  | .cons x .nil => x.render
  | .cons x tl => x.render ++ "," ++ tl.renderItems

/-- Comma-separated rendering of object entries. -/
def JsonObj.renderEntries : JsonObj → String
  | .nil => ""
  | .cons k v .nil => escapeString k ++ ":" ++ v.render
  | .cons k v tl => escapeString k ++ ":" ++ v.render ++ "," ++ tl.renderEntries
end

/-- `Value::as_str`: the raw content of a string node, `none` otherwise.
Models the `Option<&str>` accessor whose `unwrap` panics on non-strings. -/
def Json.asStr : Json → Option String
  | .str s => some s
  | _ => none

/-- The path scheme of lib.rs: `key_in` extended with a child key
(`"." + key`, no leading dot at the empty root). -/
def pathJoin (parent key : String) : String :=
  if parent.isEmpty then key else parent ++ "." ++ key

/-- The path of an array element: `format!("{}[{}]", key, i)`. -/
def indexPath (key : String) (i : Nat) : String :=
  key ++ "[" ++ toString i ++ "]"

/-- From lib.rs: `compare_primitives`.  Generic over the element type as in
the source; `render` stands for the `Display` instance. -/
def compare_primitives {T : Type} [DecidableEq T] (render : T → String)
    (key : String) (a b : T) : List ValueDiff :=
  if a = b then [] else [⟨key, render a, render b⟩]

/-- From lib.rs: `fill_diff_vectors`, returning
`(a_has, a_misses, b_has, b_misses)`.  Note that membership is plain
`Vec::contains`, not a multiset difference. -/
def fill_diff_vectors {T : Type} [DecidableEq T] (a b : List T) :
    List T × List T × List T × List T :=
  (a.filter fun x => !(b.contains x),
   b.filter fun x => !(a.contains x),
   b.filter fun x => !(a.contains x),
   a.filter fun x => !(b.contains x))

/-- From lib.rs: `handle_different_order_arrays`.  The chained iterator emits
the `AHas` block, then `AMisses`, then `BHas`, then `BMisses`. -/
def handle_different_order_arrays (a b : List Json) (key : String) :
    List ArrayDiff :=
  let v := fill_diff_vectors a b
  v.1.map (fun x => ⟨key, .aHas, x.render⟩)
    ++ v.2.1.map (fun x => ⟨key, .aMisses, x.render⟩)
    ++ v.2.2.1.map (fun x => ⟨key, .bHas, x.render⟩)
    ++ v.2.2.2.map (fun x => ⟨key, .bMisses, x.render⟩)

/-- From lib.rs: `handle_different_types` (the `debug_assert` guard is
compiled out in release builds). -/
def handle_different_types (key : String) (a b : Json) : List TypeDiff :=
  [⟨key, (get_type a).render, (get_type b).render⟩]

/-- From lib.rs: `handle_one_element_null_primitives`.  The non-null side is
read with `as_str().unwrap()`, which panics (`none`) unless it is a string. -/
def handle_one_element_null_primitives (key : String) (a b : Json) :
    Option (List ValueDiff) :=
  if a = Json.null then
    b.asStr.map fun s => [⟨key, "", s⟩]
  else
    a.asStr.map fun s => [⟨key, s, ""⟩]

/-- From lib.rs: `handle_one_element_null_arrays`.  Every element of the
non-null array is read with `as_str().unwrap()`: `none` on any non-string. -/
def handle_one_element_null_arrays (key : String) (a b : Json) :
    Option (List ArrayDiff) :=
  if a = Json.null then
    match b with
    | .arr items =>
        (items.toList.mapM Json.asStr).map
          (List.map fun s => (⟨key, .bHas, s⟩ : ArrayDiff))
    | _ => none
  else
    match a with
    | .arr items =>
        (items.toList.mapM Json.asStr).map
          (List.map fun s => (⟨key, .aHas, s⟩ : ArrayDiff))
    | _ => none

/-- The entry loop of `handle_one_element_null_objects`: for each entry of
the non-null object it pushes a `KeyDiff`, a `TypeDiff` with an empty tag on
the null side, and a `ValueDiff` whose non-null side is read with
`as_str().unwrap()` (panic on non-string values). -/
def honeObjectEntries (parent_key : String) (a_is_null : Bool)
    (ctx : WorkingContext) :
    List (String × Json) → Option (List KeyDiff × List TypeDiff × List ValueDiff)
  | [] => some ([], [], [])
  | (k, v) :: tl => do
      let s ← v.asStr
      let rest ← honeObjectEntries parent_key a_is_null ctx tl
      let full_key := pathJoin parent_key k
      pure
        (⟨full_key,
           if a_is_null then ctx.file_b.name else ctx.file_a.name,
           if a_is_null then ctx.file_a.name else ctx.file_b.name⟩ :: rest.1,
         ⟨full_key,
           if a_is_null then "" else (get_type v).render,
           if a_is_null then (get_type v).render else ""⟩ :: rest.2.1,
         ⟨full_key,
           if a_is_null then "" else s,
           if a_is_null then s else ""⟩ :: rest.2.2)

/-- From lib.rs: `handle_one_element_null_objects`.  The non-null side is
read with `as_object().unwrap()`; arrays are not handled (the TODO in the
source), so the fourth component is always empty. -/
def handle_one_element_null_objects (parent_key : String) (a b : Json)
    (ctx : WorkingContext) : Option ComparisionResult :=
  match (if a = Json.null then b else a) with
  | .obj kvs => do
      let r ← honeObjectEntries parent_key (a = Json.null) ctx kvs.toEntries
      pure (r.1, r.2.1, r.2.2, [])
  | _ => none

/-- Pointwise concatenation of two comparison results, as the repeated
`Vec::append` calls in the source. -/
def appendResults (x y : ComparisionResult) : ComparisionResult :=
  (x.1 ++ y.1, x.2.1 ++ y.2.1, x.2.2.1 ++ y.2.2.1, x.2.2.2 ++ y.2.2.2)

/-- The trailing loop of `compare_objects`: one `KeyDiff` for every key left
in the `b_keys` HashMap, i.e. every key of `b` not present in `a`.  `σ`
models the unspecified HashMap iteration order. -/
def remainingBKeyDiffs (σ : List String → List String) (key_in : String)
    (a b : JsonObj) (ctx : WorkingContext) : List KeyDiff :=
  (σ (b.keys.filter fun k => !(a.keys.contains k))).map fun b_key =>
    ⟨pathJoin key_in b_key, ctx.file_b.name, ctx.file_a.name⟩

mutual
/-- The `compare_field` dispatcher of compare_field.rs, adapted to its call
sites in lib.rs (the path is passed separately and `array_same_order` is
threaded through).  The object and array cases inline the bodies of
`compare_objects` and `compare_arrays`; the wrappers below restate them. -/
def compare_field (σ : List String → List String) (key : String) (a b : Json)
    (working_context : WorkingContext) (array_same_order : Bool) :
    Option ComparisionResult :=
  match a, b with
  -- Primitives of same type
  | .null, .null => some ([], [], [], [])
  | .str s1, .str s2 =>
      some ([], [], compare_primitives id key s1 s2, [])
  | .num n1, .num n2 =>
      some ([], [], compare_primitives toString key n1 n2, [])
  | .bool b1, .bool b2 =>
      some ([], [], compare_primitives toString key b1 b2, [])
  -- Composites of same type (bodies of compare_arrays / compare_objects)
  | .arr a_items, .arr b_items =>
      if a_items.length = b_items.length then
        if array_same_order then
          walkSameOrderItems σ key 0 a_items b_items working_context
            array_same_order
        else
          some ([], [], [],
            handle_different_order_arrays a_items.toList b_items.toList key)
      else
        some ([], [], [],
          handle_different_order_arrays a_items.toList b_items.toList key)
  | .obj a_entries, .obj b_entries =>
      (walkAEntries σ key a_entries b_entries working_context
          array_same_order).map
        fun r =>
          (r.1 ++ remainingBKeyDiffs σ key a_entries b_entries working_context,
           r.2.1, r.2.2.1, r.2.2.2)
  -- One value is null, primitives
  | .null, .str _ =>
      (handle_one_element_null_primitives key a b).map fun vd => ([], [], vd, [])
  | .null, .num _ =>
      (handle_one_element_null_primitives key a b).map fun vd => ([], [], vd, [])
  | .null, .bool _ =>
      (handle_one_element_null_primitives key a b).map fun vd => ([], [], vd, [])
  | .str _, .null =>
      (handle_one_element_null_primitives key a b).map fun vd => ([], [], vd, [])
  | .num _, .null =>
      (handle_one_element_null_primitives key a b).map fun vd => ([], [], vd, [])
  | .bool _, .null =>
      (handle_one_element_null_primitives key a b).map fun vd => ([], [], vd, [])
  -- One value is null, composites
  | .null, .arr _ =>
      (handle_one_element_null_arrays key a b).map fun ad => ([], [], [], ad)
  | .arr _, .null =>
      (handle_one_element_null_arrays key a b).map fun ad => ([], [], [], ad)
  | .null, .obj _ =>
      handle_one_element_null_objects key a b working_context
  | .obj _, .null =>
      handle_one_element_null_objects key a b working_context
  -- Type difference (the remaining twenty non-null mismatched pairs)
  | _, _ =>
      some ([], handle_different_types key a b, [], [])

/-- The loop of `compare_objects` over the entries of `a`: shared keys are
dispatched to `compare_field`, keys absent from `b` emit a `KeyDiff` with
side A as `has`. -/
def walkAEntries (σ : List String → List String) (key_in : String)
    (entries b : JsonObj) (ctx : WorkingContext) (array_same_order : Bool) :
    Option ComparisionResult :=
  match entries with
  | .nil => some ([], [], [], [])
  | .cons a_key a_value tl =>
      let key := pathJoin key_in a_key
      match b.get a_key with
      | some b_value => do
          let field ← compare_field σ key a_value b_value ctx array_same_order
          let rest ← walkAEntries σ key_in tl b ctx array_same_order
          pure (appendResults field rest)
      | none => do
          let rest ← walkAEntries σ key_in tl b ctx array_same_order
          pure (⟨key, ctx.file_a.name, ctx.file_b.name⟩ :: rest.1,
                rest.2.1, rest.2.2.1, rest.2.2.2)

/-- The index-wise loop of `compare_arrays` when both arrays have the same
length and `same_order` holds; `b[i]` on an exhausted `b` is the indexing
panic, unreachable under the equal-length guard. -/
def walkSameOrderItems (σ : List String → List String) (key : String)
    (i : Nat) (a b : JsonList) (ctx : WorkingContext) (same_order : Bool) :
    Option ComparisionResult :=
  match a, b with
  | .nil, _ => some ([], [], [], [])
  | .cons _ _, .nil => none
  | .cons a_item a_tl, .cons b_item b_tl => do
      let item ← compare_field σ (indexPath key i) a_item b_item ctx same_order
      let rest ← walkSameOrderItems σ key (i + 1) a_tl b_tl ctx same_order
      pure (appendResults item rest)
end

/-- From lib.rs: `compare_objects` — the loop over `a` followed by the
`b_keys` leftovers appended to the key diffs. -/
def compare_objects (σ : List String → List String) (key_in : String)
    (a b : JsonObj) (working_context : WorkingContext)
    (array_same_order : Bool) : Option ComparisionResult :=
  (walkAEntries σ key_in a b working_context array_same_order).map
    fun r =>
      (r.1 ++ remainingBKeyDiffs σ key_in a b working_context,
       r.2.1, r.2.2.1, r.2.2.2)

/-- From lib.rs: `compare_arrays`. -/
def compare_arrays (σ : List String → List String) (key : String)
    (a b : JsonList) (working_context : WorkingContext) (same_order : Bool) :
    Option ComparisionResult :=
  if a.length = b.length then
    if same_order then
      walkSameOrderItems σ key 0 a b working_context same_order
    else
      some ([], [], [], handle_different_order_arrays a.toList b.toList key)
  else
    some ([], [], [], handle_different_order_arrays a.toList b.toList key)

mutual
/-- Well-formedness of a document node: object keys are distinct at every
level (the `serde_json::Map` invariant). -/
def Json.wf : Json → Bool
  | .null => true
  | .bool _ => true
  | .num _ => true
  | .str _ => true
  | .arr xs => xs.wfItems
  | .obj kvs => kvs.wfEntries

/-- Well-formedness of every element of an array. -/
def JsonList.wfItems : JsonList → Bool
  | .nil => true
  | .cons x tl => x.wf && tl.wfItems

/-- Distinct keys and well-formed values. -/
def JsonObj.wfEntries : JsonObj → Bool
  | .nil => true
  | .cons k v tl => !(tl.keys.contains k) && v.wf && tl.wfEntries
end

/-- Exchange of the `has`/`misses` fields of a `KeyDiff`, relating
`compare(A,B)` to `compare(B,A)`. -/
def kdSwap (d : KeyDiff) : KeyDiff :=
  ⟨d.key, d.misses, d.has⟩

/-- The element of an array at an index (`Vec` indexing as an option). -/
def JsonList.item : JsonList → Nat → Option Json
  | .nil, _ => none
  | .cons x _, 0 => some x
  | .cons _ tl, n + 1 => tl.item n

/-- One step of a location inside a document: an object key or an array
index. -/
inductive PathStep where
  | key (k : String)
  | idx (i : Nat)
deriving DecidableEq, Repr

/-- Follow a chain of object keys and array indices from a node. -/
def Json.lookupSteps : Json → List PathStep → Option Json
  | v, [] => some v
  | .obj kvs, .key k :: rest =>
      match kvs.get k with
      | some v => v.lookupSteps rest
      | none => none
  | .arr xs, .idx i :: rest =>
      match xs.item i with
      | some v => v.lookupSteps rest
      | none => none
  | _, _ :: _ => none

/-- The chain is traversed by the engine: object steps descend through keys
present on both sides, and index steps descend through arrays that are
compared index-wise (same order requested and equal lengths). -/
def alignedSteps (ord : Bool) : Json → Json → List PathStep → Bool
  | _, _, [] => true
  | .obj a, .obj b, .key k :: rest =>
      match a.get k, b.get k with
      | some va, some vb => alignedSteps ord va vb rest
      | _, _ => false
  | .arr xs, .arr ys, .idx i :: rest =>
      ord && (xs.length == ys.length) &&
        (match xs.item i, ys.item i with
         | some x, some y => alignedSteps ord x y rest
         | _, _ => false)
  | _, _, _ :: _ => false

/-- The path string of a step chain starting from a base path. -/
def renderSteps (base : String) (p : List PathStep) : String :=
  p.foldl
    (fun acc s =>
      match s with
      | .key k => pathJoin acc k
      | .idx i => indexPath acc i)
    base

/-- Two optional results whose KeyDiff records attributed to side A form
the same ordered subsequence. -/
def resultRelA (ctx : WorkingContext) (x y : Option ComparisionResult) :
    Prop :=
  x.map (fun r => r.1.filter fun d => d.has == ctx.file_a.name) =
    y.map (fun r => r.1.filter fun d => d.has == ctx.file_a.name)

/-- The six type tags of `ValueType`. -/
def allowedTypeTags : List String :=
  ["null", "bool", "number", "string", "array", "object"]

/-- Two primitives of the same kind with different values. -/
def primSameTypeDiff : Json → Json → Bool
  | .str s, .str t => s ≠ t
  | .num m, .num n => m ≠ n
  | .bool p, .bool q => p ≠ q
  | _, _ => false

/-- The working context used by concrete examples. -/
def sampleCtx : WorkingContext := ⟨⟨"a.json"⟩, ⟨"b.json"⟩⟩


/-- The type-, value- and array-diff components of a result. -/
def restComponents (r : ComparisionResult) :
    List TypeDiff × List ValueDiff × List ArrayDiff :=
  (r.2.1, r.2.2.1, r.2.2.2)

/-- The key diffs of an optional result, as a multiset. -/
def kdMultiset (r : Option ComparisionResult) : Option (Multiset KeyDiff) :=
  r.map fun x => (x.1 : Multiset KeyDiff)

/-- The tag invariant: each tag is a known tag or empty, never both empty. -/
def tagOk (td : TypeDiff) : Prop :=
  (td.type1 ∈ allowedTypeTags ∨ td.type1 = "") ∧
    (td.type2 ∈ allowedTypeTags ∨ td.type2 = "") ∧
    ¬(td.type1 = "" ∧ td.type2 = "")

/-- Two optional results with the same key-diff multiset and identical
type-, value- and array-diff components. -/
def resultRel (x y : Option ComparisionResult) : Prop :=
  kdMultiset x = kdMultiset y ∧ x.map restComponents = y.map restComponents

mutual
/-- Node count of a document, the measure for the swap induction. -/
def Json.size : Json → Nat
  | .null => 1
  | .bool _ => 1
  | .num _ => 1
  | .str _ => 1
  | .arr xs => 1 + xs.sizeL
  | .obj kvs => 1 + kvs.sizeO

/-- Total size of array elements. -/
def JsonList.sizeL : JsonList → Nat
  | .nil => 0
  | .cons x tl => x.size + tl.sizeL

/-- Total size of object values. -/
def JsonObj.sizeO : JsonObj → Nat
  | .nil => 0
  | .cons _ v tl => v.size + tl.sizeO
end

/-- Addition on optional key-diff multisets; `none` (a panic) absorbs. -/
def oadd : Option (Multiset KeyDiff) → Option (Multiset KeyDiff) →
    Option (Multiset KeyDiff)
  | some s, some t => some (s + t)
  | _, _ => none

/-- Exchange of `has`/`misses` on an optional key-diff multiset. -/
def oswap (x : Option (Multiset KeyDiff)) : Option (Multiset KeyDiff) :=
  x.map (Multiset.map kdSwap)

/-- The key-diff contribution of one shared key. -/
def sharedStep (σ : List String → List String) (key : String)
    (ctx : WorkingContext) (ord : Bool) (a b : JsonObj) (k : String) :
    Option (Multiset KeyDiff) :=
  match a.get k, b.get k with
  | some va, some vb =>
      kdMultiset (compare_field σ (pathJoin key k) va vb ctx ord)
  | _, _ => some 0

/-- The summed key-diff contribution of a list of keys. -/
def sharedKdSum (σ : List String → List String) (key : String)
    (ctx : WorkingContext) (ord : Bool) (a b : JsonObj) :
    List String → Option (Multiset KeyDiff)
  | [] => some 0
  | k :: tl =>
      oadd (sharedStep σ key ctx ord a b k) (sharedKdSum σ key ctx ord a b tl)

/-- Fidelity of the inlining: the object case of `compare_field` is exactly
`compare_objects`. -/
theorem compare_field_obj (σ : List String → List String) (key : String)
    (oa ob : JsonObj) (ctx : WorkingContext) (ord : Bool) :
    compare_field σ key (.obj oa) (.obj ob) ctx ord =
      compare_objects σ key oa ob ctx ord := rfl

/-- Fidelity of the inlining: the array case of `compare_field` is exactly
`compare_arrays`. -/
theorem compare_field_arr (σ : List String → List String) (key : String)
    (xs ys : JsonList) (ctx : WorkingContext) (ord : Bool) :
    compare_field σ key (.arr xs) (.arr ys) ctx ord =
      compare_arrays σ key xs ys ctx ord := rfl

/-- C1 (counterexample): on A = the map with "nested" ↦ the object ("y" ↦ true)
and "x" ↦ "1", and B = the map with "x" ↦ "2", the claim predicts exactly one
KeyDiff at path "nested.y"; the engine emits none at that path (its KeyDiff is
at "nested"). -/
theorem c1_end_to_end_counterexample :
    ¬ ((compare_objects id ""
          (.cons "nested" (.obj (.cons "y" (.bool true) .nil))
            (.cons "x" (.str "1") .nil))
          (.cons "x" (.str "2") .nil) sampleCtx true).map
        (fun r => r.1.countP fun d => d.key == "nested.y") = some 1) := by
  decide

/-- C1 (amended): comparing A = `to the map "nested" ↦ ("y" ↦ true), "x" ↦ "1"`
against B = `"x" ↦ "2"` from the empty root path yields exactly one KeyDiff,
whose path is "nested" with side A as `has`, exactly one ValueDiff at "x"
with values "1" and "2", and zero TypeDiff records. -/
theorem c1_end_to_end_amended :
    compare_objects id ""
        (.cons "nested" (.obj (.cons "y" (.bool true) .nil))
          (.cons "x" (.str "1") .nil))
        (.cons "x" (.str "2") .nil) sampleCtx true =
      some ([⟨"nested", "a.json", "b.json"⟩], [],
            [⟨"x", "1", "2"⟩], []) := by
  decide

/-- C2 (failing input): comparing A = `"x" ↦ null` against B = `"x" ↦ 5`
panics — `handle_one_element_null_primitives` calls `as_str().unwrap()` on
the number — modelled as `none`; the engine is not total over well-formed
object-rooted trees. -/
theorem c2_totality_failing_input :
    compare_objects id "" (.cons "x" .null .nil) (.cons "x" (.num 5) .nil)
        sampleCtx true = none := by
  decide

/-- C10: a string paired with null at a path yields a ValueDiff rendering the
null side as the empty string (not the text "null") and the non-null side as
the raw string content; which of value1/value2 is empty follows the side
that was null. -/
theorem c10_null_string_rendering (σ : List String → List String)
    (key s : String) (ctx : WorkingContext) (ord : Bool) :
    compare_field σ key .null (.str s) ctx ord =
        some ([], [], [⟨key, "", s⟩], []) ∧
      compare_field σ key (.str s) .null ctx ord =
        some ([], [], [⟨key, s, ""⟩], []) := by
  constructor <;>
    simp [compare_field, handle_one_element_null_primitives, Json.asStr]

/-- C3 (counterexample): with the value 1 occurring twice in A and once in B,
the claim predicts exactly one AHas record; the engine emits none, because
`fill_diff_vectors` filters by `Vec::contains`, not by multiplicity. -/
theorem c3_multiset_counterexample :
    ¬ (((handle_different_order_arrays [.num 1, .num 1] [.num 1] "k").filter
        fun d => d.descriptor == ArrayDiffDesc.aHas).length = 1) := by
  decide

/-- C5 (counterexample): with A empty and B holding keys "k1" and "k2", the
two KeyDiff records for the B-only keys come from iterating a
`std::collections::HashMap`, whose order is unspecified; two runs modelled by
the iteration orders `id` and `List.reverse` produce different record
orders, so identical inputs do not always produce an identical result. -/
theorem c5_order_counterexample :
    compare_objects List.reverse "" .nil
          (.cons "k1" (.num 1) (.cons "k2" (.num 2) .nil)) sampleCtx true ≠
        compare_objects id "" .nil
          (.cons "k1" (.num 1) (.cons "k2" (.num 2) .nil)) sampleCtx true ∧
      (∀ l : List String, (List.reverse l).Perm l) := by
  refine ⟨by decide, fun l => List.reverse_perm l⟩

/-- C6 (counterexample): the same-order arrays ["x"] and [5] have equal
length and differ only at index 0, yet the engine emits zero ValueDiff (it
emits a TypeDiff instead), against the claimed exactly-one ValueDiff at
"arr[0]". -/
theorem c6_value_diff_counterexample :
    ¬ ((compare_arrays id "arr" (.cons (.str "x") .nil)
          (.cons (.num 5) .nil) sampleCtx true).map
        (fun r => r.2.2.1.length) = some 1) := by
  decide

/-- C7 (counterexample): with A = the map "a" ↦ empty object, "a.b" ↦ 1 and
B = the map "a" ↦ ("b" ↦ 2), `compare(A,B)` emits a KeyDiff at path "a.b"
with side A as `has`, but `compare(B,A)` emits two KeyDiff records at that
path (the dotted key and the nested key collide), so "no other KeyDiff at
that path" fails. -/
theorem c7_antisymmetry_counterexample :
    (compare_objects id ""
          (.cons "a" (.obj .nil) (.cons "a.b" (.num 1) .nil))
          (.cons "a" (.obj (.cons "b" (.num 2) .nil)) .nil)
          sampleCtx true).map
        (fun r => r.1.countP fun d =>
          d.key == "a.b" && d.has == "a.json") = some 1 ∧
      (compare_objects id ""
          (.cons "a" (.obj (.cons "b" (.num 2) .nil)) .nil)
          (.cons "a" (.obj .nil) (.cons "a.b" (.num 1) .nil))
          sampleCtx true).map
        (fun r => r.1.countP fun d => d.key == "a.b") = some 2 := by
  constructor <;> decide

/-- C8 (counterexample): below the matching parent "p" (objects on both
sides), the nested pair at "p.x" has differing types (string versus null),
yet the engine emits no TypeDiff at all — null pairings are sent to the null
handlers, which emit no TypeDiff — so a nested type mismatch below a
matching parent is not always found. -/
theorem c8_type_recursion_counterexample :
    (compare_objects id ""
        (.cons "p" (.obj (.cons "x" (.str "s") .nil)) .nil)
        (.cons "p" (.obj (.cons "x" .null .nil)) .nil)
        sampleCtx true).map (fun r => r.2.1.length) = some 0 := by
  decide

/-- C9 (counterexample): comparing A = `"k" ↦ ("c" ↦ "v")` against
B = `"k" ↦ null` emits a TypeDiff whose second tag is the empty string, so
not every type tag is drawn from the six-element tag set. -/
theorem c9_tag_counterexample :
    (compare_objects id ""
        (.cons "k" (.obj (.cons "c" (.str "v") .nil)) .nil)
        (.cons "k" .null .nil) sampleCtx true).map
      (fun r => r.2.1.countP fun d =>
        !(allowedTypeTags.contains d.type2)) = some 1 := by
  decide

/-- Induction on the entry spine of an object (the values are untouched). -/
theorem JsonObj.entryInduction {P : JsonObj → Prop} (nil : P .nil)
    (cons : ∀ k v tl, P tl → P (.cons k v tl)) : ∀ kvs, P kvs
  | .nil => nil
  | .cons k v tl => cons k v tl (JsonObj.entryInduction nil cons tl)

/-- Induction on the element spine of an array. -/
theorem JsonList.itemInduction {P : JsonList → Prop} (nil : P .nil)
    (cons : ∀ x tl, P tl → P (.cons x tl)) : ∀ xs, P xs
  | .nil => nil
  | .cons x tl => cons x tl (JsonList.itemInduction nil cons tl)

theorem mem_keys_of_mem_toEntries {kvs : JsonObj} {k : String} {v : Json}
    (h : (k, v) ∈ kvs.toEntries) : k ∈ kvs.keys := by
  induction kvs using JsonObj.entryInduction with
  | nil => simp [JsonObj.toEntries] at h
  | cons k0 v0 tl ih =>
      simp [JsonObj.toEntries, JsonObj.keys] at h ⊢
      rcases h with h | h
      · exact Or.inl h.1
      · exact Or.inr (ih h)

theorem wfEntries_parts {k : String} {v : Json} {tl : JsonObj}
    (h : (JsonObj.cons k v tl).wfEntries = true) :
    !(tl.keys.contains k) = true ∧ v.wf = true ∧ tl.wfEntries = true := by
  simp [JsonObj.wfEntries] at h
  simp [h]

theorem get_eq_some_of_mem {kvs : JsonObj} {k : String} {v : Json}
    (hw : kvs.wfEntries = true) (h : (k, v) ∈ kvs.toEntries) :
    kvs.get k = some v := by
  induction kvs using JsonObj.entryInduction with
  | nil => simp [JsonObj.toEntries] at h
  | cons k0 v0 tl ih =>
      obtain ⟨hk0, hv0, htl⟩ := wfEntries_parts hw
      simp [JsonObj.toEntries] at h
      rcases h with ⟨hk, hv⟩ | h
      · simp [JsonObj.get, hk, hv]
      · have hmem := mem_keys_of_mem_toEntries h
        have hne : k0 ≠ k := by
          intro e; subst e
          simp at hk0
          exact hk0 hmem
        simp [JsonObj.get, hne, ih htl h]

theorem wf_of_mem_toEntries {kvs : JsonObj} {k : String} {v : Json}
    (hw : kvs.wfEntries = true) (h : (k, v) ∈ kvs.toEntries) :
    v.wf = true := by
  induction kvs using JsonObj.entryInduction with
  | nil => simp [JsonObj.toEntries] at h
  | cons k0 v0 tl ih =>
      obtain ⟨hk0, hv0, htl⟩ := wfEntries_parts hw
      simp [JsonObj.toEntries] at h
      rcases h with ⟨hk, hv⟩ | h
      · exact hv ▸ hv0
      · exact ih htl h

theorem filter_not_contains_self {T : Type} [DecidableEq T] (l : List T) :
    (l.filter fun x => !(l.contains x)) = [] := by
  simp

theorem hdoa_self (l : List Json) (key : String) :
    handle_different_order_arrays l l key = [] := by
  simp [handle_different_order_arrays, fill_diff_vectors]

theorem remaining_self (σ : List String → List String)
    (hσ : ∀ l : List String, (σ l).Perm l) (key : String) (kvs : JsonObj)
    (ctx : WorkingContext) : remainingBKeyDiffs σ key kvs kvs ctx = [] := by
  have h1 : (kvs.keys.filter fun k => !(kvs.keys.contains k)) = [] :=
    filter_not_contains_self _
  have hp := hσ (kvs.keys.filter fun k => !(kvs.keys.contains k))
  rw [h1] at hp
  have h2 : σ [] = [] := hp.eq_nil
  simp only [remainingBKeyDiffs]
  rw [h1, h2]
  simp

mutual
theorem compare_field_self (σ : List String → List String)
    (hσ : ∀ l : List String, (σ l).Perm l) :
    ∀ (v : Json), v.wf = true →
      ∀ (key : String) (ctx : WorkingContext) (ord : Bool),
        compare_field σ key v v ctx ord = some ([], [], [], [])
  | .null, _, key, ctx, ord => by simp [compare_field]
  | .bool b, _, key, ctx, ord => by simp [compare_field, compare_primitives]
  | .num n, _, key, ctx, ord => by simp [compare_field, compare_primitives]
  | .str s, _, key, ctx, ord => by simp [compare_field, compare_primitives]
  | .arr xs, h, key, ctx, ord => by
      have hx : xs.wfItems = true := by simpa [Json.wf] using h
      cases ord with
      | true =>
          have hw := walkSameOrderItems_self σ hσ xs hx key 0 ctx true
          simp [compare_field, hw]
      | false => simp [compare_field, hdoa_self]
  | .obj kvs, h, key, ctx, ord => by
      have hk : kvs.wfEntries = true := by simpa [Json.wf] using h
      have hw := walkAEntries_self σ hσ kvs kvs
        (fun k v hm => ⟨get_eq_some_of_mem hk hm, wf_of_mem_toEntries hk hm⟩)
        key ctx ord
      simp [compare_field, hw, remaining_self σ hσ]

theorem walkAEntries_self (σ : List String → List String)
    (hσ : ∀ l : List String, (σ l).Perm l) :
    ∀ (entries b : JsonObj),
      (∀ k v, (k, v) ∈ entries.toEntries → b.get k = some v ∧ v.wf = true) →
      ∀ (key : String) (ctx : WorkingContext) (ord : Bool),
        walkAEntries σ key entries b ctx ord = some ([], [], [], [])
  | .nil, b, _, key, ctx, ord => by simp [walkAEntries]
  | .cons k v tl, b, hb, key, ctx, ord => by
      obtain ⟨hget, hwf⟩ := hb k v (by simp [JsonObj.toEntries])
      have hf := compare_field_self σ hσ v hwf (pathJoin key k) ctx ord
      have hr := walkAEntries_self σ hσ tl b
        (fun k2 v2 hm => hb k2 v2 (by simp [JsonObj.toEntries, hm]))
        key ctx ord
      simp [walkAEntries, hget, hf, hr, appendResults]

theorem walkSameOrderItems_self (σ : List String → List String)
    (hσ : ∀ l : List String, (σ l).Perm l) :
    ∀ (xs : JsonList), xs.wfItems = true →
      ∀ (key : String) (i : Nat) (ctx : WorkingContext) (ord : Bool),
        walkSameOrderItems σ key i xs xs ctx ord = some ([], [], [], [])
  | .nil, _, key, i, ctx, ord => by simp [walkSameOrderItems]
  | .cons x tl, h, key, i, ctx, ord => by
      have hx : x.wf = true ∧ tl.wfItems = true := by
        simpa [JsonList.wfItems] using h
      have hf := compare_field_self σ hσ x hx.1 (indexPath key i) ctx ord
      have hr := walkSameOrderItems_self σ hσ tl hx.2 key (i + 1) ctx ord
      simp [walkSameOrderItems, hf, hr, appendResults]
end

/-- C4: comparing any well-formed object-rooted document against itself —
for any root path, working context, array-ordering setting, and any
iteration order of the `b_keys` HashMap — yields empty sequences for every
diff category: no KeyDiff, TypeDiff, ValueDiff, or ArrayDiff records. -/
theorem c4_self_compare_empty (σ : List String → List String)
    (hσ : ∀ l : List String, (σ l).Perm l) (kvs : JsonObj)
    (h : Json.wf (.obj kvs) = true) (key : String) (ctx : WorkingContext)
    (ord : Bool) :
    compare_objects σ key kvs kvs ctx ord = some ([], [], [], []) := by
  have hf := compare_field_self σ hσ (.obj kvs) h key ctx ord
  rw [compare_field_obj] at hf
  exact hf

/-- C4 witness: the self-comparison theorem applied to a concrete document
holding an array, a nested object, a string, a number, a bool and a null. -/
theorem c4_self_compare_empty_witness :
    Json.wf (.obj (.cons "arr" (.arr (.cons (.num 1) (.cons (.str "s") .nil)))
        (.cons "obj" (.obj (.cons "b" (.bool true) .nil))
          (.cons "z" .null .nil)))) = true ∧
      compare_objects id ""
          (.cons "arr" (.arr (.cons (.num 1) (.cons (.str "s") .nil)))
            (.cons "obj" (.obj (.cons "b" (.bool true) .nil))
              (.cons "z" .null .nil)))
          (.cons "arr" (.arr (.cons (.num 1) (.cons (.str "s") .nil)))
            (.cons "obj" (.obj (.cons "b" (.bool true) .nil))
              (.cons "z" .null .nil)))
          sampleCtx false = some ([], [], [], []) :=
  ⟨by decide,
   c4_self_compare_empty id (fun l => List.Perm.refl l) _ (by decide) ""
     sampleCtx false⟩

theorem primSameTypeDiff_iff (x y : Json) :
    primSameTypeDiff x y = true ↔
      (∃ s t, x = .str s ∧ y = .str t ∧ s ≠ t) ∨
        (∃ m n, x = .num m ∧ y = .num n ∧ m ≠ n) ∨
        (∃ p q, x = .bool p ∧ y = .bool q ∧ p ≠ q) := by
  cases x <;> cases y <;> simp [primSameTypeDiff]

theorem compare_field_prim_diff (σ : List String → List String) (k : String)
    (x y : Json) (h : primSameTypeDiff x y = true) (ctx : WorkingContext)
    (ord : Bool) :
    ∃ v1 v2, compare_field σ k x y ctx ord =
      some ([], [], [⟨k, v1, v2⟩], []) := by
  rcases (primSameTypeDiff_iff x y).mp h with
    ⟨s, t, rfl, rfl, hne⟩ | ⟨m, n, rfl, rfl, hne⟩ | ⟨p, q, rfl, rfl, hne⟩
  · exact ⟨s, t, by simp [compare_field, compare_primitives, hne]⟩
  · exact ⟨toString m, toString n,
      by simp [compare_field, compare_primitives, hne]⟩
  · exact ⟨toString p, toString q,
      by simp [compare_field, compare_primitives, hne]⟩

theorem JsonList.ext_item : ∀ (xs ys : JsonList),
    (∀ j, xs.item j = ys.item j) → xs = ys
  | .nil, .nil, _ => rfl
  | .nil, .cons y tl, h => by simpa [JsonList.item] using h 0
  | .cons x tl, .nil, h => by simpa [JsonList.item] using h 0
  | .cons x xtl, .cons y ytl, h => by
      have h0 := h 0
      simp [JsonList.item] at h0
      have ht := JsonList.ext_item xtl ytl (fun j => by
        have := h (j + 1)
        simpa [JsonList.item] using this)
      rw [h0, ht]

theorem walk_single_diff (σ : List String → List String)
    (hσ : ∀ l : List String, (σ l).Perm l) :
    ∀ (xs ys : JsonList) (i s : Nat) (key : String) (ctx : WorkingContext),
      xs.length = ys.length →
      xs.wfItems = true →
      (∀ j, j ≠ i → xs.item j = ys.item j) →
      (∃ x y, xs.item i = some x ∧ ys.item i = some y ∧
        primSameTypeDiff x y = true) →
      ∃ v1 v2, walkSameOrderItems σ key s xs ys ctx true =
        some ([], [], [⟨indexPath key (s + i), v1, v2⟩], [])
  | .nil, _, i, s, key, ctx, _, _, _, hx => by
      obtain ⟨x, y, hxi, -, -⟩ := hx
      simp [JsonList.item] at hxi
  | .cons _ _, .nil, i, s, key, ctx, hlen, _, _, _ => by
      simp [JsonList.length] at hlen
  | .cons x xtl, .cons y ytl, 0, s, key, ctx, hlen, hwf, hothers, hx => by
      obtain ⟨x0, y0, hx0, hy0, hprim⟩ := hx
      simp [JsonList.item] at hx0 hy0
      subst hx0; subst hy0
      obtain ⟨v1, v2, hfield⟩ :=
        compare_field_prim_diff σ (indexPath key s) x y hprim ctx true
      have htl : xtl = ytl := JsonList.ext_item xtl ytl (fun j => by
        have := hothers (j + 1) (by omega)
        simpa [JsonList.item] using this)
      subst htl
      have hwtl : xtl.wfItems = true := by
        simp [JsonList.wfItems] at hwf
        exact hwf.2
      have hrest := walkSameOrderItems_self σ hσ xtl hwtl key (s + 1) ctx true
      refine ⟨v1, v2, ?_⟩
      simp [walkSameOrderItems, hfield, hrest, appendResults]
  | .cons x xtl, .cons y ytl, i + 1, s, key, ctx, hlen, hwf, hothers, hx => by
      have h0 := hothers 0 (by omega)
      simp [JsonList.item] at h0
      subst h0
      have hwx : x.wf = true ∧ xtl.wfItems = true := by
        simpa [JsonList.wfItems] using hwf
      have hhead := compare_field_self σ hσ x hwx.1 (indexPath key s) ctx true
      have hlen2 : xtl.length = ytl.length := by
        simp [JsonList.length] at hlen
        omega
      obtain ⟨v1, v2, hrest⟩ := walk_single_diff σ hσ xtl ytl i (s + 1) key ctx
        hlen2 hwx.2
        (fun j hj => by
          have := hothers (j + 1) (by omega)
          simpa [JsonList.item] using this)
        (by
          obtain ⟨x0, y0, hx0, hy0, hp⟩ := hx
          exact ⟨x0, y0, by simpa [JsonList.item] using hx0,
            by simpa [JsonList.item] using hy0, hp⟩)
      refine ⟨v1, v2, ?_⟩
      have harith : s + 1 + i = s + (i + 1) := by omega
      rw [harith] at hrest
      simp [walkSameOrderItems, hhead, hrest, appendResults]

/-- C6 (amended): same-order arrays of equal length differing only at index
i, where the differing elements are primitives of the same kind, yield
exactly one ValueDiff at path key[i] and no ArrayDiff (nor any other)
records. -/
theorem c6_same_order_single_value_diff (σ : List String → List String)
    (hσ : ∀ l : List String, (σ l).Perm l) (key : String) (a b : JsonList)
    (i : Nat) (ctx : WorkingContext)
    (hlen : a.length = b.length) (hwf : a.wfItems = true)
    (hothers : ∀ j, j ≠ i → a.item j = b.item j)
    (hx : ∃ x y, a.item i = some x ∧ b.item i = some y ∧
      primSameTypeDiff x y = true) :
    ∃ v1 v2, compare_arrays σ key a b ctx true =
      some ([], [], [⟨indexPath key i, v1, v2⟩], []) := by
  obtain ⟨v1, v2, hw⟩ := walk_single_diff σ hσ a b i 0 key ctx hlen hwf
    hothers hx
  rw [Nat.zero_add] at hw
  exact ⟨v1, v2, by simp [compare_arrays, hlen, hw]⟩

/-- C6 witness at arrays [1,2,3] versus [1,5,3], differing at index 1. -/
theorem c6_same_order_single_value_diff_witness :
    (∀ j, j ≠ 1 →
        JsonList.item (.cons (.num 1) (.cons (.num 2) (.cons (.num 3) .nil))) j
          = JsonList.item
            (.cons (.num 1) (.cons (.num 5) (.cons (.num 3) .nil))) j) ∧
      ∃ v1 v2, compare_arrays id "arr"
          (.cons (.num 1) (.cons (.num 2) (.cons (.num 3) .nil)))
          (.cons (.num 1) (.cons (.num 5) (.cons (.num 3) .nil)))
          sampleCtx true =
        some ([], [], [⟨indexPath "arr" 1, v1, v2⟩], []) := by
  have hothers : ∀ j, j ≠ 1 →
      JsonList.item (.cons (.num 1) (.cons (.num 2) (.cons (.num 3) .nil))) j
        = JsonList.item
          (.cons (.num 1) (.cons (.num 5) (.cons (.num 3) .nil))) j := by
    intro j hj
    match j with
    | 0 => rfl
    | 1 => exact absurd rfl hj
    | n + 2 => rfl
  exact ⟨hothers,
    c6_same_order_single_value_diff id (fun l => List.Perm.refl l) "arr" _ _ 1
      sampleCtx (by decide) (by decide) hothers
      ⟨.num 2, .num 5, by decide, by decide, by decide⟩⟩

theorem aHas_record_values (a b : List Json) (key : String) :
    ((handle_different_order_arrays a b key).filter
        (fun d => d.descriptor == ArrayDiffDesc.aHas)).map (fun d => d.value)
      = ((fill_diff_vectors a b).1).map Json.render := by
  have h1 : (ArrayDiffDesc.aMisses == ArrayDiffDesc.aHas) = false := by decide
  have h2 : (ArrayDiffDesc.bHas == ArrayDiffDesc.aHas) = false := by decide
  have h3 : (ArrayDiffDesc.bMisses == ArrayDiffDesc.aHas) = false := by decide
  simp [handle_different_order_arrays, fill_diff_vectors, List.filter_map,
    Function.comp, h1, h2, h3]

theorem aHas_member_count (a b : List Json) (v : Json) :
    ((fill_diff_vectors a b).1).count v =
      (if b.contains v then 0 else a.count v) := by
  by_cases hv : v ∈ b
  · simp only [fill_diff_vectors]
    rw [List.count_eq_zero.mpr (by simp [List.mem_filter, hv])]
    simp [hv]
  · simp only [fill_diff_vectors]
    rw [List.count_filter (by simp [hv])]
    simp [hv]

/-- Every `ValueType` rendering is one of the six tags. -/
theorem valueType_render_mem (t : ValueType) :
    t.render ∈ allowedTypeTags := by
  cases t <;> simp [ValueType.render, allowedTypeTags]

theorem valueType_render_ne_empty (t : ValueType) : t.render ≠ "" := by
  cases t <;> simp [ValueType.render]

theorem handle_different_types_tags (key : String) (a b : Json)
    {td : TypeDiff} (h : td ∈ handle_different_types key a b) : tagOk td := by
  simp [handle_different_types] at h
  subst h
  exact ⟨Or.inl (valueType_render_mem _), Or.inl (valueType_render_mem _),
    fun hc => valueType_render_ne_empty _ hc.1⟩

theorem honeObjectEntries_tags (pk : String) (isnull : Bool)
    (ctx : WorkingContext) :
    ∀ (entries : List (String × Json)) (r) (td : TypeDiff),
      honeObjectEntries pk isnull ctx entries = some r →
      td ∈ r.2.1 → tagOk td
  | [], r, td, h, hm => by
      simp [honeObjectEntries] at h
      subst h
      simp at hm
  | (k, v) :: tl, r, td, h, hm => by
      simp only [honeObjectEntries, Option.bind_eq_bind, Option.bind_eq_some,
        Option.pure_def, Option.some_inj] at h
      obtain ⟨s, hs, rest, hrest, hr⟩ := h
      subst hr
      simp only [List.mem_cons] at hm
      rcases hm with hm | hm
      · subst hm
        cases isnull <;>
          exact ⟨by simp [valueType_render_mem], by simp [valueType_render_mem],
            by simp [valueType_render_ne_empty]⟩
      · exact honeObjectEntries_tags pk isnull ctx tl rest td hrest hm

theorem hone_objects_tags (pk : String) (a b : Json) (ctx : WorkingContext)
    (r : ComparisionResult) (td : TypeDiff)
    (h : handle_one_element_null_objects pk a b ctx = some r)
    (hm : td ∈ r.2.1) : tagOk td := by
  unfold handle_one_element_null_objects at h
  cases he : (if a = Json.null then b else a) with
  | null => rw [he] at h; simp at h
  | bool x => rw [he] at h; simp at h
  | num x => rw [he] at h; simp at h
  | str x => rw [he] at h; simp at h
  | arr x => rw [he] at h; simp at h
  | obj kvs =>
      rw [he] at h
      simp only [Option.bind_eq_bind, Option.bind_eq_some, Option.pure_def,
        Option.some_inj] at h
      obtain ⟨t3, ht3, hr⟩ := h
      subst hr
      exact honeObjectEntries_tags pk (a = Json.null) ctx kvs.toEntries t3 td
        ht3 hm

mutual
theorem compare_field_tags (σ : List String → List String) :
    ∀ (a b : Json) (key : String) (ctx : WorkingContext) (ord : Bool)
      (r : ComparisionResult) (td : TypeDiff),
      compare_field σ key a b ctx ord = some r → td ∈ r.2.1 → tagOk td
  | .arr xs, .arr ys, key, ctx, ord, r, td, h, hm => by
      simp only [compare_field] at h
      by_cases hlen : xs.length = ys.length
      · rw [if_pos hlen] at h
        cases ord with
        | true =>
            rw [if_pos rfl] at h
            exact walkSameOrderItems_tags σ xs ys key 0 ctx true r td h hm
        | false =>
            rw [if_neg (by simp)] at h
            obtain rfl := Option.some_inj.mp h
            simp at hm
      · rw [if_neg hlen] at h
        obtain rfl := Option.some_inj.mp h
        simp at hm
  | .obj oa, .obj ob, key, ctx, ord, r, td, h, hm => by
      simp only [compare_field, Option.map_eq_some'] at h
      obtain ⟨w, hw, hr⟩ := h
      subst hr
      exact walkAEntries_tags σ oa ob key ctx ord w td hw hm
  | .null, .null, key, ctx, ord, r, td, h, hm => by
      obtain rfl := Option.some_inj.mp h
      simp at hm
  | .str s1, .str s2, key, ctx, ord, r, td, h, hm => by
      simp only [compare_field] at h
      obtain rfl := Option.some_inj.mp h
      simp at hm
  | .num n1, .num n2, key, ctx, ord, r, td, h, hm => by
      simp only [compare_field] at h
      obtain rfl := Option.some_inj.mp h
      simp at hm
  | .bool b1, .bool b2, key, ctx, ord, r, td, h, hm => by
      simp only [compare_field] at h
      obtain rfl := Option.some_inj.mp h
      simp at hm
  | .null, .str s, key, ctx, ord, r, td, h, hm => by
      simp only [compare_field, Option.map_eq_some'] at h
      obtain ⟨vd, -, hr⟩ := h
      subst hr
      simp at hm
  | .null, .num n, key, ctx, ord, r, td, h, hm => by
      simp only [compare_field, Option.map_eq_some'] at h
      obtain ⟨vd, -, hr⟩ := h
      subst hr
      simp at hm
  | .null, .bool x, key, ctx, ord, r, td, h, hm => by
      simp only [compare_field, Option.map_eq_some'] at h
      obtain ⟨vd, -, hr⟩ := h
      subst hr
      simp at hm
  | .str s, .null, key, ctx, ord, r, td, h, hm => by
      simp only [compare_field, Option.map_eq_some'] at h
      obtain ⟨vd, -, hr⟩ := h
      subst hr
      simp at hm
  | .num n, .null, key, ctx, ord, r, td, h, hm => by
      simp only [compare_field, Option.map_eq_some'] at h
      obtain ⟨vd, -, hr⟩ := h
      subst hr
      simp at hm
  | .bool x, .null, key, ctx, ord, r, td, h, hm => by
      simp only [compare_field, Option.map_eq_some'] at h
      obtain ⟨vd, -, hr⟩ := h
      subst hr
      simp at hm
  | .null, .arr ys, key, ctx, ord, r, td, h, hm => by
      simp only [compare_field, Option.map_eq_some'] at h
      obtain ⟨ad, -, hr⟩ := h
      subst hr
      simp at hm
  | .arr xs, .null, key, ctx, ord, r, td, h, hm => by
      simp only [compare_field, Option.map_eq_some'] at h
      obtain ⟨ad, -, hr⟩ := h
      subst hr
      simp at hm
  | .null, .obj ob, key, ctx, ord, r, td, h, hm => by
      simp only [compare_field] at h
      exact hone_objects_tags key .null (.obj ob) ctx r td h hm
  | .obj oa, .null, key, ctx, ord, r, td, h, hm => by
      simp only [compare_field] at h
      exact hone_objects_tags key (.obj oa) .null ctx r td h hm
  | .str s, .num n, key, ctx, ord, r, td, h, hm => by
      simp only [compare_field] at h
      obtain rfl := Option.some_inj.mp h
      exact handle_different_types_tags key _ _ (by simpa using hm)
  | .str s, .bool x, key, ctx, ord, r, td, h, hm => by
      simp only [compare_field] at h
      obtain rfl := Option.some_inj.mp h
      exact handle_different_types_tags key _ _ (by simpa using hm)
  | .str s, .arr ys, key, ctx, ord, r, td, h, hm => by
      simp only [compare_field] at h
      obtain rfl := Option.some_inj.mp h
      exact handle_different_types_tags key _ _ (by simpa using hm)
  | .str s, .obj ob, key, ctx, ord, r, td, h, hm => by
      simp only [compare_field] at h
      obtain rfl := Option.some_inj.mp h
      exact handle_different_types_tags key _ _ (by simpa using hm)
  | .num n, .str s, key, ctx, ord, r, td, h, hm => by
      simp only [compare_field] at h
      obtain rfl := Option.some_inj.mp h
      exact handle_different_types_tags key _ _ (by simpa using hm)
  | .num n, .bool x, key, ctx, ord, r, td, h, hm => by
      simp only [compare_field] at h
      obtain rfl := Option.some_inj.mp h
      exact handle_different_types_tags key _ _ (by simpa using hm)
  | .num n, .arr ys, key, ctx, ord, r, td, h, hm => by
      simp only [compare_field] at h
      obtain rfl := Option.some_inj.mp h
      exact handle_different_types_tags key _ _ (by simpa using hm)
  | .num n, .obj ob, key, ctx, ord, r, td, h, hm => by
      simp only [compare_field] at h
      obtain rfl := Option.some_inj.mp h
      exact handle_different_types_tags key _ _ (by simpa using hm)
  | .bool x, .str s, key, ctx, ord, r, td, h, hm => by
      simp only [compare_field] at h
      obtain rfl := Option.some_inj.mp h
      exact handle_different_types_tags key _ _ (by simpa using hm)
  | .bool x, .num n, key, ctx, ord, r, td, h, hm => by
      simp only [compare_field] at h
      obtain rfl := Option.some_inj.mp h
      exact handle_different_types_tags key _ _ (by simpa using hm)
  | .bool x, .arr ys, key, ctx, ord, r, td, h, hm => by
      simp only [compare_field] at h
      obtain rfl := Option.some_inj.mp h
      exact handle_different_types_tags key _ _ (by simpa using hm)
  | .bool x, .obj ob, key, ctx, ord, r, td, h, hm => by
      simp only [compare_field] at h
      obtain rfl := Option.some_inj.mp h
      exact handle_different_types_tags key _ _ (by simpa using hm)
  | .arr xs, .str s, key, ctx, ord, r, td, h, hm => by
      simp only [compare_field] at h
      obtain rfl := Option.some_inj.mp h
      exact handle_different_types_tags key _ _ (by simpa using hm)
  | .arr xs, .num n, key, ctx, ord, r, td, h, hm => by
      simp only [compare_field] at h
      obtain rfl := Option.some_inj.mp h
      exact handle_different_types_tags key _ _ (by simpa using hm)
  | .arr xs, .bool x, key, ctx, ord, r, td, h, hm => by
      simp only [compare_field] at h
      obtain rfl := Option.some_inj.mp h
      exact handle_different_types_tags key _ _ (by simpa using hm)
  | .arr xs, .obj ob, key, ctx, ord, r, td, h, hm => by
      simp only [compare_field] at h
      obtain rfl := Option.some_inj.mp h
      exact handle_different_types_tags key _ _ (by simpa using hm)
  | .obj oa, .str s, key, ctx, ord, r, td, h, hm => by
      simp only [compare_field] at h
      obtain rfl := Option.some_inj.mp h
      exact handle_different_types_tags key _ _ (by simpa using hm)
  | .obj oa, .num n, key, ctx, ord, r, td, h, hm => by
      simp only [compare_field] at h
      obtain rfl := Option.some_inj.mp h
      exact handle_different_types_tags key _ _ (by simpa using hm)
  | .obj oa, .bool x, key, ctx, ord, r, td, h, hm => by
      simp only [compare_field] at h
      obtain rfl := Option.some_inj.mp h
      exact handle_different_types_tags key _ _ (by simpa using hm)
  | .obj oa, .arr ys, key, ctx, ord, r, td, h, hm => by
      simp only [compare_field] at h
      obtain rfl := Option.some_inj.mp h
      exact handle_different_types_tags key _ _ (by simpa using hm)

theorem walkAEntries_tags (σ : List String → List String) :
    ∀ (entries b : JsonObj) (key : String) (ctx : WorkingContext) (ord : Bool)
      (r : ComparisionResult) (td : TypeDiff),
      walkAEntries σ key entries b ctx ord = some r → td ∈ r.2.1 → tagOk td
  | .nil, b, key, ctx, ord, r, td, h, hm => by
      obtain rfl := Option.some_inj.mp h
      simp at hm
  | .cons k v tl, b, key, ctx, ord, r, td, h, hm => by
      simp only [walkAEntries] at h
      cases hbv : b.get k with
      | some bv =>
          rw [hbv] at h
          simp only [Option.bind_eq_bind, Option.bind_eq_some, Option.pure_def,
            Option.some_inj] at h
          obtain ⟨field, hfield, rest, hrest, hr⟩ := h
          subst hr
          simp only [appendResults, List.mem_append] at hm
          rcases hm with hm | hm
          · exact compare_field_tags σ v bv (pathJoin key k) ctx ord field td
              hfield hm
          · exact walkAEntries_tags σ tl b key ctx ord rest td hrest hm
      | none =>
          rw [hbv] at h
          simp only [Option.bind_eq_bind, Option.bind_eq_some, Option.pure_def,
            Option.some_inj] at h
          obtain ⟨rest, hrest, hr⟩ := h
          subst hr
          exact walkAEntries_tags σ tl b key ctx ord rest td hrest hm

theorem walkSameOrderItems_tags (σ : List String → List String) :
    ∀ (xs ys : JsonList) (key : String) (i : Nat) (ctx : WorkingContext)
      (ord : Bool) (r : ComparisionResult) (td : TypeDiff),
      walkSameOrderItems σ key i xs ys ctx ord = some r → td ∈ r.2.1 → tagOk td
  | .nil, ys, key, i, ctx, ord, r, td, h, hm => by
      obtain rfl := Option.some_inj.mp h
      simp at hm
  | .cons x xtl, .nil, key, i, ctx, ord, r, td, h, hm => by
      simp [walkSameOrderItems] at h
  | .cons x xtl, .cons y ytl, key, i, ctx, ord, r, td, h, hm => by
      simp only [walkSameOrderItems, Option.bind_eq_bind, Option.bind_eq_some,
        Option.pure_def, Option.some_inj] at h
      obtain ⟨item, hitem, rest, hrest, hr⟩ := h
      subst hr
      simp only [appendResults, List.mem_append] at hm
      rcases hm with hm | hm
      · exact compare_field_tags σ x y (indexPath key i) ctx ord item td
          hitem hm
      · exact walkSameOrderItems_tags σ xtl ytl key (i + 1) ctx ord rest td
          hrest hm
end

/-- C3 (amended): duplicates are not matched one-to-one by multiplicity.
The AHas records of the unordered array comparison are exactly the elements
of A whose value does not occur in B at all (each such occurrence of A
yields one record); for every value v, the number of AHas elements for v is
`count of v in A` when v does not occur in B, and 0 otherwise — in
particular, a value present twice in A and once in B yields zero AHas
records, not one. -/
theorem c3_ahas_count_amended (a b : List Json) (key : String) (v : Json) :
    ((handle_different_order_arrays a b key).filter
          (fun d => d.descriptor == ArrayDiffDesc.aHas)).map (fun d => d.value)
        = ((fill_diff_vectors a b).1).map Json.render ∧
      ((fill_diff_vectors a b).1).count v =
        (if b.contains v then 0 else a.count v) :=
  ⟨aHas_record_values a b key, aHas_member_count a b v⟩

/-- C9 (amended): every TypeDiff record emitted by the comparison carries
two tags each drawn from {null, bool, number, string, array, object} or the
empty string, and never both empty; the empty tag arises on the null side
of a null-versus-object pairing. -/
theorem c9_type_tags_amended (σ : List String → List String) (key : String)
    (a b : JsonObj) (ctx : WorkingContext) (ord : Bool)
    (r : ComparisionResult) (h : compare_objects σ key a b ctx ord = some r) :
    ∀ td ∈ r.2.1,
      (td.type1 ∈ allowedTypeTags ∨ td.type1 = "") ∧
        (td.type2 ∈ allowedTypeTags ∨ td.type2 = "") ∧
        ¬(td.type1 = "" ∧ td.type2 = "") := by
  intro td hm
  rw [← compare_field_obj] at h
  exact compare_field_tags σ (.obj a) (.obj b) key ctx ord r td h hm

/-- C9 witness: the tag invariant applied to the comparison of
`"k" ↦ ("c" ↦ "v")` against `"k" ↦ null`, whose TypeDiff has an empty
second tag. -/
theorem c9_type_tags_amended_witness :
    compare_objects id "" (.cons "k" (.obj (.cons "c" (.str "v") .nil)) .nil)
        (.cons "k" .null .nil) sampleCtx true =
      some ([⟨"k.c", "a.json", "b.json"⟩], [⟨"k.c", "string", ""⟩],
            [⟨"k.c", "v", ""⟩], []) ∧
      ∀ td ∈ [(⟨"k.c", "string", ""⟩ : TypeDiff)],
        (td.type1 ∈ allowedTypeTags ∨ td.type1 = "") ∧
          (td.type2 ∈ allowedTypeTags ∨ td.type2 = "") ∧
          ¬(td.type1 = "" ∧ td.type2 = "") :=
  ⟨by decide,
   c9_type_tags_amended id "" (.cons "k" (.obj (.cons "c" (.str "v") .nil)) .nil)
     (.cons "k" .null .nil) sampleCtx true
     ([⟨"k.c", "a.json", "b.json"⟩], [⟨"k.c", "string", ""⟩],
      [⟨"k.c", "v", ""⟩], []) (by decide)⟩

theorem resultRel_refl (x : Option ComparisionResult) : resultRel x x :=
  ⟨rfl, rfl⟩

theorem remaining_sigma (σ : List String → List String)
    (hσ : ∀ l : List String, (σ l).Perm l) (key : String) (a b : JsonObj)
    (ctx : WorkingContext) :
    (↑(remainingBKeyDiffs σ key a b ctx) : Multiset KeyDiff) =
      ↑(remainingBKeyDiffs id key a b ctx) := by
  simp only [remainingBKeyDiffs, id]
  exact Multiset.coe_eq_coe.mpr ((hσ _).map _)

theorem resultRel_bind_append {x1 x2 y1 y2 : Option ComparisionResult}
    (hx : resultRel x1 x2) (hy : resultRel y1 y2) :
    resultRel
      (do let f ← x1; let r ← y1; pure (appendResults f r))
      (do let f ← x2; let r ← y2; pure (appendResults f r)) := by
  obtain ⟨hxk, hxr⟩ := hx
  obtain ⟨hyk, hyr⟩ := hy
  rcases x1 with _ | f1 <;> rcases x2 with _ | f2
  · exact ⟨rfl, rfl⟩
  · exact absurd hxk (by simp [kdMultiset])
  · exact absurd hxk (by simp [kdMultiset])
  rcases y1 with _ | r1 <;> rcases y2 with _ | r2
  · exact ⟨rfl, rfl⟩
  · exact absurd hyk (by simp [kdMultiset])
  · exact absurd hyk (by simp [kdMultiset])
  simp only [kdMultiset, restComponents, Option.map_some',
    Option.some_inj] at hxk hxr hyk hyr
  constructor
  · simp only [Option.bind_eq_bind, Option.some_bind, Option.pure_def,
      kdMultiset, Option.map_some', Option.some_inj, appendResults]
    rw [← Multiset.coe_add, ← Multiset.coe_add, hxk, hyk]
  · simp only [Option.bind_eq_bind, Option.some_bind, Option.pure_def,
      Option.map_some', Option.some_inj, appendResults, restComponents,
      Prod.mk.injEq] at hxr hyr ⊢
    exact ⟨by rw [hxr.1, hyr.1], by rw [hxr.2.1, hyr.2.1],
      by rw [hxr.2.2, hyr.2.2]⟩

theorem resultRel_bind_conskd (kd : KeyDiff) {y1 y2 : Option ComparisionResult}
    (hy : resultRel y1 y2) :
    resultRel
      (do let r ← y1; pure (kd :: r.1, r.2.1, r.2.2.1, r.2.2.2))
      (do let r ← y2; pure (kd :: r.1, r.2.1, r.2.2.1, r.2.2.2)) := by
  obtain ⟨hyk, hyr⟩ := hy
  rcases y1 with _ | r1 <;> rcases y2 with _ | r2
  · exact ⟨rfl, rfl⟩
  · exact absurd hyk (by simp [kdMultiset])
  · exact absurd hyk (by simp [kdMultiset])
  simp only [kdMultiset, restComponents, Option.map_some',
    Option.some_inj] at hyk hyr
  constructor
  · simp only [Option.bind_eq_bind, Option.some_bind, Option.pure_def,
      kdMultiset, Option.map_some', Option.some_inj]
    rw [← Multiset.cons_coe, ← Multiset.cons_coe, hyk]
  · simp only [Option.bind_eq_bind, Option.some_bind, Option.pure_def,
      Option.map_some', Option.some_inj, restComponents]
    exact hyr

theorem resultRel_map_kdappend {x1 x2 : Option ComparisionResult}
    {L1 L2 : List KeyDiff} (hx : resultRel x1 x2)
    (hL : (↑L1 : Multiset KeyDiff) = ↑L2) :
    resultRel (x1.map fun r => (r.1 ++ L1, r.2.1, r.2.2.1, r.2.2.2))
      (x2.map fun r => (r.1 ++ L2, r.2.1, r.2.2.1, r.2.2.2)) := by
  obtain ⟨hxk, hxr⟩ := hx
  rcases x1 with _ | r1 <;> rcases x2 with _ | r2
  · exact ⟨rfl, rfl⟩
  · exact absurd hxk (by simp [kdMultiset])
  · exact absurd hxk (by simp [kdMultiset])
  simp only [kdMultiset, restComponents, Option.map_some',
    Option.some_inj] at hxk hxr
  constructor
  · simp only [kdMultiset, Option.map_some', Option.some_inj]
    rw [← Multiset.coe_add, ← Multiset.coe_add, hxk, hL]
  · simp only [restComponents, Option.map_some', Option.some_inj]
    exact hxr

mutual
theorem compare_field_sigma (σ : List String → List String)
    (hσ : ∀ l : List String, (σ l).Perm l) :
    ∀ (a b : Json) (key : String) (ctx : WorkingContext) (ord : Bool),
      resultRel (compare_field σ key a b ctx ord)
        (compare_field id key a b ctx ord)
  | .arr xs, .arr ys, key, ctx, ord => by
      rw [compare_field_arr, compare_field_arr]
      simp only [compare_arrays]
      by_cases hlen : xs.length = ys.length
      · rw [if_pos hlen, if_pos hlen]
        cases ord with
        | true =>
            rw [if_pos rfl, if_pos rfl]
            exact walkSameOrderItems_sigma σ hσ xs ys key 0 ctx true
        | false => exact resultRel_refl _
      · rw [if_neg hlen, if_neg hlen]
        exact resultRel_refl _
  | .obj oa, .obj ob, key, ctx, ord => by
      rw [compare_field_obj, compare_field_obj]
      simp only [compare_objects]
      exact resultRel_map_kdappend (walkAEntries_sigma σ hσ oa ob key ctx ord)
        (remaining_sigma σ hσ key oa ob ctx)
  | .null, .null, key, ctx, ord => resultRel_refl _
  | .bool b1, .bool b2, key, ctx, ord => resultRel_refl _
  | .num n1, .num n2, key, ctx, ord => resultRel_refl _
  | .str s1, .str s2, key, ctx, ord => resultRel_refl _
  | .null, .bool x, key, ctx, ord => resultRel_refl _
  | .null, .num n, key, ctx, ord => resultRel_refl _
  | .null, .str s, key, ctx, ord => resultRel_refl _
  | .null, .arr ys, key, ctx, ord => resultRel_refl _
  | .null, .obj ob, key, ctx, ord => resultRel_refl _
  | .bool x, .null, key, ctx, ord => resultRel_refl _
  | .num n, .null, key, ctx, ord => resultRel_refl _
  | .str s, .null, key, ctx, ord => resultRel_refl _
  | .arr xs, .null, key, ctx, ord => resultRel_refl _
  | .obj oa, .null, key, ctx, ord => resultRel_refl _
  | .str s, .num n, key, ctx, ord => resultRel_refl _
  | .str s, .bool x, key, ctx, ord => resultRel_refl _
  | .str s, .arr ys, key, ctx, ord => resultRel_refl _
  | .str s, .obj ob, key, ctx, ord => resultRel_refl _
  | .num n, .str s, key, ctx, ord => resultRel_refl _
  | .num n, .bool x, key, ctx, ord => resultRel_refl _
  | .num n, .arr ys, key, ctx, ord => resultRel_refl _
  | .num n, .obj ob, key, ctx, ord => resultRel_refl _
  | .bool x, .str s, key, ctx, ord => resultRel_refl _
  | .bool x, .num n, key, ctx, ord => resultRel_refl _
  | .bool x, .arr ys, key, ctx, ord => resultRel_refl _
  | .bool x, .obj ob, key, ctx, ord => resultRel_refl _
  | .arr xs, .str s, key, ctx, ord => resultRel_refl _
  | .arr xs, .num n, key, ctx, ord => resultRel_refl _
  | .arr xs, .bool x, key, ctx, ord => resultRel_refl _
  | .arr xs, .obj ob, key, ctx, ord => resultRel_refl _
  | .obj oa, .str s, key, ctx, ord => resultRel_refl _
  | .obj oa, .num n, key, ctx, ord => resultRel_refl _
  | .obj oa, .bool x, key, ctx, ord => resultRel_refl _
  | .obj oa, .arr ys, key, ctx, ord => resultRel_refl _

theorem walkAEntries_sigma (σ : List String → List String)
    (hσ : ∀ l : List String, (σ l).Perm l) :
    ∀ (entries b : JsonObj) (key : String) (ctx : WorkingContext)
      (ord : Bool),
      resultRel (walkAEntries σ key entries b ctx ord)
        (walkAEntries id key entries b ctx ord)
  | .nil, b, key, ctx, ord => resultRel_refl _
  | .cons k v tl, b, key, ctx, ord => by
      simp only [walkAEntries]
      cases hbv : b.get k with
      | some bv =>
          exact resultRel_bind_append
            (compare_field_sigma σ hσ v bv (pathJoin key k) ctx ord)
            (walkAEntries_sigma σ hσ tl b key ctx ord)
      | none =>
          exact resultRel_bind_conskd _
            (walkAEntries_sigma σ hσ tl b key ctx ord)

theorem walkSameOrderItems_sigma (σ : List String → List String)
    (hσ : ∀ l : List String, (σ l).Perm l) :
    ∀ (xs ys : JsonList) (key : String) (i : Nat) (ctx : WorkingContext)
      (ord : Bool),
      resultRel (walkSameOrderItems σ key i xs ys ctx ord)
        (walkSameOrderItems id key i xs ys ctx ord)
  | .nil, ys, key, i, ctx, ord => resultRel_refl _
  | .cons x xtl, .nil, key, i, ctx, ord => resultRel_refl _
  | .cons x xtl, .cons y ytl, key, i, ctx, ord => by
      simp only [walkSameOrderItems]
      exact resultRel_bind_append
        (compare_field_sigma σ hσ x y (indexPath key i) ctx ord)
        (walkSameOrderItems_sigma σ hσ xtl ytl key (i + 1) ctx ord)
end

/-- The unordered array records come as four blocks in the fixed descriptor
order AHas, AMisses, BHas, BMisses. -/
theorem hdoa_block_order (a b : List Json) (key : String) :
    ∃ l1 l2 l3 l4,
      handle_different_order_arrays a b key = l1 ++ l2 ++ l3 ++ l4 ∧
        (∀ d ∈ l1, d.descriptor = ArrayDiffDesc.aHas) ∧
        (∀ d ∈ l2, d.descriptor = ArrayDiffDesc.aMisses) ∧
        (∀ d ∈ l3, d.descriptor = ArrayDiffDesc.bHas) ∧
        (∀ d ∈ l4, d.descriptor = ArrayDiffDesc.bMisses) := by
  refine ⟨((fill_diff_vectors a b).1).map
      (fun x => ⟨key, ArrayDiffDesc.aHas, x.render⟩),
    ((fill_diff_vectors a b).2.1).map
      (fun x => ⟨key, ArrayDiffDesc.aMisses, x.render⟩),
    ((fill_diff_vectors a b).2.2.1).map
      (fun x => ⟨key, ArrayDiffDesc.bHas, x.render⟩),
    ((fill_diff_vectors a b).2.2.2).map
      (fun x => ⟨key, ArrayDiffDesc.bMisses, x.render⟩),
    by simp only [handle_different_order_arrays], ?_, ?_, ?_, ?_⟩
  all_goals
    intro d hd
    simp only [List.mem_map] at hd
    obtain ⟨x, -, rfl⟩ := hd
    rfl


theorem resultRelA_refl (ctx : WorkingContext) (x : Option ComparisionResult) :
    resultRelA ctx x x := rfl

theorem resultRelA_bind_append (ctx : WorkingContext)
    {x1 x2 y1 y2 : Option ComparisionResult}
    (hx : resultRelA ctx x1 x2) (hy : resultRelA ctx y1 y2) :
    resultRelA ctx
      (do let f ← x1; let r ← y1; pure (appendResults f r))
      (do let f ← x2; let r ← y2; pure (appendResults f r)) := by
  unfold resultRelA at hx hy ⊢
  rcases x1 with _ | f1 <;> rcases x2 with _ | f2
  · rfl
  · exact absurd hx (by simp)
  · exact absurd hx (by simp)
  rcases y1 with _ | r1 <;> rcases y2 with _ | r2
  · rfl
  · exact absurd hy (by simp)
  · exact absurd hy (by simp)
  simp only [Option.map_some', Option.some_inj] at hx hy
  simp only [Option.bind_eq_bind, Option.some_bind, Option.pure_def,
    Option.map_some', Option.some_inj, appendResults, List.filter_append]
  rw [hx, hy]

theorem resultRelA_bind_conskd (ctx : WorkingContext) (kd : KeyDiff)
    {y1 y2 : Option ComparisionResult} (hy : resultRelA ctx y1 y2) :
    resultRelA ctx
      (do let r ← y1; pure (kd :: r.1, r.2.1, r.2.2.1, r.2.2.2))
      (do let r ← y2; pure (kd :: r.1, r.2.1, r.2.2.1, r.2.2.2)) := by
  unfold resultRelA at hy ⊢
  rcases y1 with _ | r1 <;> rcases y2 with _ | r2
  · rfl
  · exact absurd hy (by simp)
  · exact absurd hy (by simp)
  simp only [Option.map_some', Option.some_inj] at hy
  simp only [Option.bind_eq_bind, Option.some_bind, Option.pure_def,
    Option.map_some', Option.some_inj, List.filter_cons]
  rw [hy]

theorem resultRelA_map_kdappend (ctx : WorkingContext)
    {x1 x2 : Option ComparisionResult} {L1 L2 : List KeyDiff}
    (hx : resultRelA ctx x1 x2)
    (hL : (L1.filter fun d => d.has == ctx.file_a.name) =
      (L2.filter fun d => d.has == ctx.file_a.name)) :
    resultRelA ctx
      (x1.map fun r => (r.1 ++ L1, r.2.1, r.2.2.1, r.2.2.2))
      (x2.map fun r => (r.1 ++ L2, r.2.1, r.2.2.1, r.2.2.2)) := by
  unfold resultRelA at hx ⊢
  rcases x1 with _ | r1 <;> rcases x2 with _ | r2
  · rfl
  · exact absurd hx (by simp)
  · exact absurd hx (by simp)
  simp only [Option.map_some', Option.some_inj] at hx
  simp only [Option.map_some', Option.some_inj, List.filter_append]
  rw [hx, hL]

/-- With distinct side labels, the trailing B-only KeyDiff block contributes
nothing to the side-A subsequence, for any iteration order. -/
theorem remaining_filter_a (σ : List String → List String) (key : String)
    (a b : JsonObj) (ctx : WorkingContext)
    (hne : ctx.file_a.name ≠ ctx.file_b.name) :
    ((remainingBKeyDiffs σ key a b ctx).filter
      fun d => d.has == ctx.file_a.name) = [] := by
  simp only [remainingBKeyDiffs, List.filter_map, Function.comp]
  rw [show ((fun d => d.has == ctx.file_a.name) ∘ fun b_key =>
      (⟨pathJoin key b_key, ctx.file_b.name, ctx.file_a.name⟩ : KeyDiff)) =
      fun _ => (ctx.file_b.name == ctx.file_a.name) from rfl]
  rw [show (ctx.file_b.name == ctx.file_a.name) = false from
    beq_eq_false_iff_ne.mpr (fun h => hne h.symm)]
  simp

mutual
theorem compare_field_sigmaA (σ : List String → List String)
    (ctx : WorkingContext) (hne : ctx.file_a.name ≠ ctx.file_b.name) :
    ∀ (a b : Json) (key : String) (ord : Bool),
      resultRelA ctx (compare_field σ key a b ctx ord)
        (compare_field id key a b ctx ord)
  | .arr xs, .arr ys, key, ord => by
      rw [compare_field_arr, compare_field_arr]
      simp only [compare_arrays]
      by_cases hlen : xs.length = ys.length
      · rw [if_pos hlen, if_pos hlen]
        cases ord with
        | true =>
            rw [if_pos rfl, if_pos rfl]
            exact walkSameOrderItems_sigmaA σ ctx hne xs ys key 0 true
        | false => exact resultRelA_refl ctx _
      · rw [if_neg hlen, if_neg hlen]
        exact resultRelA_refl ctx _
  | .obj oa, .obj ob, key, ord => by
      rw [compare_field_obj, compare_field_obj]
      simp only [compare_objects]
      exact resultRelA_map_kdappend ctx
        (walkAEntries_sigmaA σ ctx hne oa ob key ord)
        (by rw [remaining_filter_a σ key oa ob ctx hne,
          remaining_filter_a id key oa ob ctx hne])
  | .null, .null, key, ord => resultRelA_refl ctx _
  | .bool b1, .bool b2, key, ord => resultRelA_refl ctx _
  | .num n1, .num n2, key, ord => resultRelA_refl ctx _
  | .str s1, .str s2, key, ord => resultRelA_refl ctx _
  | .null, .bool x, key, ord => resultRelA_refl ctx _
  | .null, .num n, key, ord => resultRelA_refl ctx _
  | .null, .str s, key, ord => resultRelA_refl ctx _
  | .null, .arr ys, key, ord => resultRelA_refl ctx _
  | .null, .obj ob, key, ord => resultRelA_refl ctx _
  | .bool x, .null, key, ord => resultRelA_refl ctx _
  | .num n, .null, key, ord => resultRelA_refl ctx _
  | .str s, .null, key, ord => resultRelA_refl ctx _
  | .arr xs, .null, key, ord => resultRelA_refl ctx _
  | .obj oa, .null, key, ord => resultRelA_refl ctx _
  | .str s, .num n, key, ord => resultRelA_refl ctx _
  | .str s, .bool x, key, ord => resultRelA_refl ctx _
  | .str s, .arr ys, key, ord => resultRelA_refl ctx _
  | .str s, .obj ob, key, ord => resultRelA_refl ctx _
  | .num n, .str s, key, ord => resultRelA_refl ctx _
  | .num n, .bool x, key, ord => resultRelA_refl ctx _
  | .num n, .arr ys, key, ord => resultRelA_refl ctx _
  | .num n, .obj ob, key, ord => resultRelA_refl ctx _
  | .bool x, .str s, key, ord => resultRelA_refl ctx _
  | .bool x, .num n, key, ord => resultRelA_refl ctx _
  | .bool x, .arr ys, key, ord => resultRelA_refl ctx _
  | .bool x, .obj ob, key, ord => resultRelA_refl ctx _
  | .arr xs, .str s, key, ord => resultRelA_refl ctx _
  | .arr xs, .num n, key, ord => resultRelA_refl ctx _
  | .arr xs, .bool x, key, ord => resultRelA_refl ctx _
  | .arr xs, .obj ob, key, ord => resultRelA_refl ctx _
  | .obj oa, .str s, key, ord => resultRelA_refl ctx _
  | .obj oa, .num n, key, ord => resultRelA_refl ctx _
  | .obj oa, .bool x, key, ord => resultRelA_refl ctx _
  | .obj oa, .arr ys, key, ord => resultRelA_refl ctx _

theorem walkAEntries_sigmaA (σ : List String → List String)
    (ctx : WorkingContext) (hne : ctx.file_a.name ≠ ctx.file_b.name) :
    ∀ (entries b : JsonObj) (key : String) (ord : Bool),
      resultRelA ctx (walkAEntries σ key entries b ctx ord)
        (walkAEntries id key entries b ctx ord)
  | .nil, b, key, ord => resultRelA_refl ctx _
  | .cons k v tl, b, key, ord => by
      simp only [walkAEntries]
      cases hbv : b.get k with
      | some bv =>
          exact resultRelA_bind_append ctx
            (compare_field_sigmaA σ ctx hne v bv (pathJoin key k) ord)
            (walkAEntries_sigmaA σ ctx hne tl b key ord)
      | none =>
          exact resultRelA_bind_conskd ctx _
            (walkAEntries_sigmaA σ ctx hne tl b key ord)

theorem walkSameOrderItems_sigmaA (σ : List String → List String)
    (ctx : WorkingContext) (hne : ctx.file_a.name ≠ ctx.file_b.name) :
    ∀ (xs ys : JsonList) (key : String) (i : Nat) (ord : Bool),
      resultRelA ctx (walkSameOrderItems σ key i xs ys ctx ord)
        (walkSameOrderItems id key i xs ys ctx ord)
  | .nil, ys, key, i, ord => resultRelA_refl ctx _
  | .cons x xtl, .nil, key, i, ord => resultRelA_refl ctx _
  | .cons x xtl, .cons y ytl, key, i, ord => by
      simp only [walkSameOrderItems]
      exact resultRelA_bind_append ctx
        (compare_field_sigmaA σ ctx hne x y (indexPath key i) ord)
        (walkSameOrderItems_sigmaA σ ctx hne xtl ytl key (i + 1) ord)
end


/-- C5 (amended): identical inputs and context determine the key-diff
multiset, the exact type-, value- and array-diff sequences, and — when the
two side labels differ — the exact ordered subsequence of KeyDiff records
attributed to side A; only the relative order of the KeyDiff records for
keys present only in B (the `b_keys` HashMap iteration) is unspecified.
For each unordered array comparison the side tags are emitted in the fixed
block order AHas*, AMisses*, BHas*, BMisses*. -/
theorem c5_determinism_amended (σ : List String → List String)
    (hσ : ∀ l : List String, (σ l).Perm l) (key : String) (a b : JsonObj)
    (ctx : WorkingContext) (ord : Bool) (arrA arrB : List Json)
    (akey : String) :
    (kdMultiset (compare_objects σ key a b ctx ord) =
        kdMultiset (compare_objects id key a b ctx ord) ∧
      (compare_objects σ key a b ctx ord).map restComponents =
        (compare_objects id key a b ctx ord).map restComponents ∧
      (ctx.file_a.name ≠ ctx.file_b.name →
        (compare_objects σ key a b ctx ord).map
            (fun r => r.1.filter fun d => d.has == ctx.file_a.name) =
          (compare_objects id key a b ctx ord).map
            (fun r => r.1.filter fun d => d.has == ctx.file_a.name))) ∧
      ∃ l1 l2 l3 l4,
        handle_different_order_arrays arrA arrB akey =
            l1 ++ l2 ++ l3 ++ l4 ∧
          (∀ d ∈ l1, d.descriptor = ArrayDiffDesc.aHas) ∧
          (∀ d ∈ l2, d.descriptor = ArrayDiffDesc.aMisses) ∧
          (∀ d ∈ l3, d.descriptor = ArrayDiffDesc.bHas) ∧
          (∀ d ∈ l4, d.descriptor = ArrayDiffDesc.bMisses) := by
  constructor
  · have h := compare_field_sigma σ hσ (.obj a) (.obj b) key ctx ord
    rw [compare_field_obj, compare_field_obj] at h
    refine ⟨h.1, h.2, fun hne => ?_⟩
    have hA := compare_field_sigmaA σ ctx hne (.obj a) (.obj b) key ord
    rw [compare_field_obj, compare_field_obj] at hA
    exact hA
  · exact hdoa_block_order arrA arrB akey

/-- C5 witness: the amended determinism theorem applied with the reversal
iteration order against the identity order on a concrete input with two
B-only keys, distinct side labels, and a concrete unordered array pair. -/
theorem c5_determinism_amended_witness :
    (∀ l : List String, (List.reverse l).Perm l) ∧
      ((kdMultiset (compare_objects List.reverse "" .nil
            (.cons "k1" (.num 1) (.cons "k2" (.num 2) .nil)) sampleCtx true) =
          kdMultiset (compare_objects id "" .nil
            (.cons "k1" (.num 1) (.cons "k2" (.num 2) .nil)) sampleCtx true) ∧
        (compare_objects List.reverse "" .nil
              (.cons "k1" (.num 1) (.cons "k2" (.num 2) .nil))
              sampleCtx true).map restComponents =
          (compare_objects id "" .nil
              (.cons "k1" (.num 1) (.cons "k2" (.num 2) .nil))
              sampleCtx true).map restComponents ∧
        (sampleCtx.file_a.name ≠ sampleCtx.file_b.name →
          (compare_objects List.reverse "" .nil
                (.cons "k1" (.num 1) (.cons "k2" (.num 2) .nil))
                sampleCtx true).map
              (fun r => r.1.filter fun d => d.has == sampleCtx.file_a.name) =
            (compare_objects id "" .nil
                (.cons "k1" (.num 1) (.cons "k2" (.num 2) .nil))
                sampleCtx true).map
              (fun r =>
                r.1.filter fun d => d.has == sampleCtx.file_a.name))) ∧
        ∃ l1 l2 l3 l4,
          handle_different_order_arrays [Json.num 1, Json.num 1] [Json.num 1]
              "k" = l1 ++ l2 ++ l3 ++ l4 ∧
            (∀ d ∈ l1, d.descriptor = ArrayDiffDesc.aHas) ∧
            (∀ d ∈ l2, d.descriptor = ArrayDiffDesc.aMisses) ∧
            (∀ d ∈ l3, d.descriptor = ArrayDiffDesc.bHas) ∧
            (∀ d ∈ l4, d.descriptor = ArrayDiffDesc.bMisses)) :=
  ⟨fun l => List.reverse_perm l,
   c5_determinism_amended List.reverse (fun l => List.reverse_perm l) ""
     .nil (.cons "k1" (.num 1) (.cons "k2" (.num 2) .nil)) sampleCtx true
     [Json.num 1, Json.num 1] [Json.num 1] "k"⟩


theorem mem_toEntries_of_get {kvs : JsonObj} {k : String} {v : Json}
    (h : kvs.get k = some v) : (k, v) ∈ kvs.toEntries := by
  induction kvs using JsonObj.entryInduction with
  | nil => simp [JsonObj.get] at h
  | cons k0 v0 tl ih =>
      simp only [JsonObj.get] at h
      by_cases hk : k0 = k
      · rw [if_pos hk] at h
        obtain rfl := Option.some_inj.mp h
        subst hk
        simp [JsonObj.toEntries]
      · rw [if_neg hk] at h
        simp [JsonObj.toEntries, ih h]

/-- A mismatching non-null pair is dispatched to `handle_different_types`. -/
theorem compare_field_mismatch (σ : List String → List String) (key : String)
    (ctx : WorkingContext) (ord : Bool) (a b : Json) (ha : a ≠ .null)
    (hb : b ≠ .null) (hty : get_type a ≠ get_type b) :
    compare_field σ key a b ctx ord =
      some ([], handle_different_types key a b, [], []) := by
  cases a <;> cases b <;>
    first
    | exact absurd rfl ha
    | exact absurd rfl hb
    | exact absurd rfl hty
    | rfl

/-- Records of a shared entry's field comparison survive into the walk
result. -/
theorem walkAEntries_extract (σ : List String → List String)
    (key : String) (ctx : WorkingContext) (ord : Bool)
    {b : JsonObj} {k0 : String} {v0 bv : Json} :
    ∀ {entries : JsonObj} {r : ComparisionResult},
      walkAEntries σ key entries b ctx ord = some r →
      (k0, v0) ∈ entries.toEntries → b.get k0 = some bv →
      ∃ fr, compare_field σ (pathJoin key k0) v0 bv ctx ord = some fr ∧
        ∀ td ∈ fr.2.1, td ∈ r.2.1 := by
  intro entries
  induction entries using JsonObj.entryInduction with
  | nil => intro r h hm; simp [JsonObj.toEntries] at hm
  | cons k v tl ih =>
      intro r h hm hget
      simp only [JsonObj.toEntries, List.mem_cons, Prod.mk.injEq] at hm
      simp only [walkAEntries] at h
      rcases hm with ⟨rfl, rfl⟩ | hm
      · rw [hget] at h
        simp only [Option.bind_eq_bind, Option.bind_eq_some, Option.pure_def,
          Option.some_inj] at h
        obtain ⟨field, hfield, rest, hrest, hr⟩ := h
        subst hr
        exact ⟨field, hfield, fun td htd => by
          simp [appendResults, htd]⟩
      · cases hbk : b.get k with
        | some bv2 =>
            rw [hbk] at h
            simp only [Option.bind_eq_bind, Option.bind_eq_some,
              Option.pure_def, Option.some_inj] at h
            obtain ⟨field, hfield, rest, hrest, hr⟩ := h
            subst hr
            obtain ⟨fr, hfr, hsub⟩ := ih hrest hm hget
            exact ⟨fr, hfr, fun td htd => by
              simp [appendResults, hsub td htd]⟩
        | none =>
            rw [hbk] at h
            simp only [Option.bind_eq_bind, Option.bind_eq_some,
              Option.pure_def, Option.some_inj] at h
            obtain ⟨rest, hrest, hr⟩ := h
            subst hr
            obtain ⟨fr, hfr, hsub⟩ := ih hrest hm hget
            exact ⟨fr, hfr, fun td htd => hsub td htd⟩

/-- Type diffs of the walk survive into `compare_objects`. -/
theorem compare_objects_extract (σ : List String → List String)
    (key : String) (ctx : WorkingContext) (ord : Bool) {a b : JsonObj}
    {r : ComparisionResult}
    (h : compare_objects σ key a b ctx ord = some r) :
    ∃ w, walkAEntries σ key a b ctx ord = some w ∧ w.2.1 = r.2.1 := by
  simp only [compare_objects, Option.map_eq_some'] at h
  obtain ⟨w, hw, hr⟩ := h
  subst hr
  exact ⟨w, hw, rfl⟩

theorem oadd_comm (x y : Option (Multiset KeyDiff)) : oadd x y = oadd y x := by
  rcases x with _ | s <;> rcases y with _ | t <;> simp [oadd, add_comm]

theorem oadd_assoc (x y z : Option (Multiset KeyDiff)) :
    oadd (oadd x y) z = oadd x (oadd y z) := by
  rcases x with _ | s <;> rcases y with _ | t <;> rcases z with _ | u <;>
    simp [oadd, add_assoc]

theorem oadd_left_comm (x y z : Option (Multiset KeyDiff)) :
    oadd x (oadd y z) = oadd y (oadd x z) := by
  rw [← oadd_assoc, oadd_comm x y, oadd_assoc]

theorem oadd_zero (x : Option (Multiset KeyDiff)) : oadd x (some 0) = x := by
  rcases x with _ | s <;> simp [oadd]

theorem oadd_some_some (s t : Multiset KeyDiff) :
    oadd (some s) (some t) = some (s + t) := rfl

theorem oswap_oadd (x y : Option (Multiset KeyDiff)) :
    oswap (oadd x y) = oadd (oswap x) (oswap y) := by
  rcases x with _ | s <;> rcases y with _ | t <;> simp [oadd, oswap]

theorem oswap_zero : oswap (some 0) = some 0 := by simp [oswap]

theorem oswap_coe (l : List KeyDiff) :
    oswap (some ↑l) = some ↑(l.map kdSwap) := by
  simp [oswap]

/-- The right-hand form of the swap statement, as `oswap` of `kdMultiset`. -/
theorem map_kdswap_eq_oswap (x : Option ComparisionResult) :
    (x.map fun r => ((r.1.map kdSwap : List KeyDiff) : Multiset KeyDiff)) =
      oswap (kdMultiset x) := by
  rcases x with _ | r <;> simp [oswap, kdMultiset]

-- C7: characterization lemmas

theorem get_none_iff (kvs : JsonObj) (k : String) :
    kvs.get k = none ↔ ¬ k ∈ kvs.keys := by
  induction kvs using JsonObj.entryInduction with
  | nil => simp [JsonObj.get, JsonObj.keys]
  | cons k0 v0 tl ih =>
      by_cases hk : k0 = k
      · subst hk
        simp [JsonObj.get, JsonObj.keys]
      · have hne : k = k0 ↔ False := ⟨fun h => hk h.symm, False.elim⟩
        simp [JsonObj.get, JsonObj.keys, hk, ih, hne]

theorem wfEntries_keys_nodup {kvs : JsonObj} (h : kvs.wfEntries = true) :
    kvs.keys.Nodup := by
  induction kvs using JsonObj.entryInduction with
  | nil => simp [JsonObj.keys]
  | cons k v tl ih =>
      obtain ⟨hk, -, htl⟩ := wfEntries_parts h
      simp only [JsonObj.keys, List.nodup_cons]
      exact ⟨by simpa using hk, ih htl⟩

theorem walk_kd_nil (σ : List String → List String) (key : String)
    (b : JsonObj) (ctx : WorkingContext) (ord : Bool) :
    kdMultiset (walkAEntries σ key .nil b ctx ord) = some 0 := by
  simp [walkAEntries, kdMultiset]

theorem walk_kd_cons (σ : List String → List String) (key k : String)
    (v : Json) (tl b : JsonObj) (ctx : WorkingContext) (ord : Bool) :
    kdMultiset (walkAEntries σ key (.cons k v tl) b ctx ord) =
      match b.get k with
      | some bv =>
          oadd (kdMultiset (compare_field σ (pathJoin key k) v bv ctx ord))
            (kdMultiset (walkAEntries σ key tl b ctx ord))
      | none =>
          oadd (some {⟨pathJoin key k, ctx.file_a.name, ctx.file_b.name⟩})
            (kdMultiset (walkAEntries σ key tl b ctx ord)) := by
  simp only [walkAEntries]
  cases hbv : b.get k with
  | some bv =>
      rcases hf : compare_field σ (pathJoin key k) v bv ctx ord with _ | f <;>
        rcases hr : walkAEntries σ key tl b ctx ord with _ | r <;>
          simp [kdMultiset, oadd, hf, hr, appendResults, Multiset.coe_add]
  | none =>
      rcases hr : walkAEntries σ key tl b ctx ord with _ | r <;>
        simp [kdMultiset, oadd, hr, Multiset.cons_coe, Multiset.singleton_add]

theorem compare_objects_kd_char (σ : List String → List String) (key : String)
    (a b : JsonObj) (ctx : WorkingContext) (ord : Bool) :
    kdMultiset (compare_objects σ key a b ctx ord) =
      oadd (kdMultiset (walkAEntries σ key a b ctx ord))
        (some ↑(remainingBKeyDiffs σ key a b ctx)) := by
  simp only [compare_objects]
  rcases hw : walkAEntries σ key a b ctx ord with _ | w <;>
    simp [kdMultiset, oadd, Multiset.coe_add]

theorem walk_kd_split (σ : List String → List String) (key : String)
    (ctx : WorkingContext) (ord : Bool) (b : JsonObj) :
    ∀ (entries a : JsonObj),
      (∀ k v, (k, v) ∈ entries.toEntries → a.get k = some v) →
      kdMultiset (walkAEntries σ key entries b ctx ord) =
        oadd
          (sharedKdSum σ key ctx ord a b
            (entries.keys.filter fun k => b.keys.contains k))
          (some ↑((entries.keys.filter fun k => !(b.keys.contains k)).map
            (fun k =>
              (⟨pathJoin key k, ctx.file_a.name, ctx.file_b.name⟩ :
                KeyDiff)))) := by
  intro entries
  induction entries using JsonObj.entryInduction with
  | nil => intro a ha; simp [walk_kd_nil, JsonObj.keys, sharedKdSum, oadd]
  | cons k v tl ih =>
      intro a ha
      rw [walk_kd_cons]
      have hav : a.get k = some v := ha k v (by simp [JsonObj.toEntries])
      have htl := ih a (fun k2 v2 hm => ha k2 v2 (by
        simp [JsonObj.toEntries, hm]))
      cases hbv : b.get k with
      | some bv =>
          have hcont : b.keys.contains k = true := by
            rcases hc : b.keys.contains k with _ | _
            · exfalso
              have := (get_none_iff b k).mpr (by simpa using hc)
              rw [this] at hbv
              exact Option.noConfusion hbv
            · rfl
          have hstep : sharedStep σ key ctx ord a b k =
              kdMultiset (compare_field σ (pathJoin key k) v bv ctx ord) := by
            unfold sharedStep
            rw [hav, hbv]
          simp only [JsonObj.keys, List.filter_cons, hcont, Bool.not_true,
            Bool.false_eq_true, if_false, if_true, htl, sharedKdSum, hstep]
          rw [← oadd_assoc]
      | none =>
          have hcont : b.keys.contains k = false := by
            rcases hc : b.keys.contains k with _ | _
            · rfl
            · exfalso
              have hmem : k ∈ b.keys := by simpa using hc
              rcases hbg : b.get k with _ | v2
              · rw [get_none_iff] at hbg
                exact hbg hmem
              · rw [hbg] at hbv
                exact Option.noConfusion hbv
          simp only [JsonObj.keys, List.filter_cons, hcont, Bool.not_false,
            Bool.false_eq_true, if_false, if_true, htl]
          rw [List.map_cons, ← Multiset.cons_coe, ← Multiset.singleton_add,
            ← oadd_some_some, oadd_left_comm]

theorem sharedKdSum_perm (σ : List String → List String) (key : String)
    (ctx : WorkingContext) (ord : Bool) (a b : JsonObj)
    {l1 l2 : List String} (h : l1.Perm l2) :
    sharedKdSum σ key ctx ord a b l1 = sharedKdSum σ key ctx ord a b l2 := by
  induction h with
  | nil => rfl
  | cons x _ ih => simp [sharedKdSum, ih]
  | swap x y l => simp [sharedKdSum, oadd_left_comm]
  | trans _ _ ih1 ih2 => rw [ih1, ih2]

theorem sharedStep_swap (σ : List String → List String) (key : String)
    (ctx : WorkingContext) (ord : Bool) (a b : JsonObj) (k : String)
    (hk : ∀ va vb, a.get k = some va → b.get k = some vb →
      kdMultiset (compare_field σ (pathJoin key k) vb va ctx ord) =
        oswap (kdMultiset (compare_field σ (pathJoin key k) va vb ctx ord))) :
    sharedStep σ key ctx ord b a k = oswap (sharedStep σ key ctx ord a b k) := by
  unfold sharedStep
  cases ha : a.get k with
  | some va =>
      cases hb : b.get k with
      | some vb => exact hk va vb ha hb
      | none => simp [oswap]
  | none =>
      cases hb : b.get k with
      | some vb => simp [oswap]
      | none => simp [oswap]

theorem sharedKdSum_swap (σ : List String → List String) (key : String)
    (ctx : WorkingContext) (ord : Bool) (a b : JsonObj) :
    ∀ (l : List String),
      (∀ k ∈ l, ∀ va vb, a.get k = some va → b.get k = some vb →
        kdMultiset (compare_field σ (pathJoin key k) vb va ctx ord) =
          oswap (kdMultiset (compare_field σ (pathJoin key k) va vb ctx ord))) →
      sharedKdSum σ key ctx ord b a l =
        oswap (sharedKdSum σ key ctx ord a b l)
  | [], _ => by simp [sharedKdSum, oswap]
  | k :: tl, h => by
      simp only [sharedKdSum, oswap_oadd]
      rw [sharedStep_swap σ key ctx ord a b k (h k (by simp)),
        sharedKdSum_swap σ key ctx ord a b tl
          (fun k2 hk2 => h k2 (by simp [hk2]))]

theorem keys_filter_inter_perm (a b : JsonObj) (hna : a.keys.Nodup)
    (hnb : b.keys.Nodup) :
    (a.keys.filter fun k => b.keys.contains k).Perm
      (b.keys.filter fun k => a.keys.contains k) := by
  apply (List.perm_ext_iff_of_nodup (hna.filter _) (hnb.filter _)).mpr
  intro k
  simp [List.mem_filter, and_comm]

-- null-versus-object swap

theorem honeEntries_kd_swap (pk : String) (ctx : WorkingContext) :
    ∀ (entries : List (String × Json)),
      ((honeObjectEntries pk false ctx entries).map
          (fun t => (↑t.1 : Multiset KeyDiff))) =
        oswap ((honeObjectEntries pk true ctx entries).map
          (fun t => (↑t.1 : Multiset KeyDiff)))
  | [] => by simp [honeObjectEntries, oswap]
  | (k, v) :: tl => by
      cases hs : v.asStr with
      | none => simp [honeObjectEntries, hs, oswap]
      | some s =>
          have ih := honeEntries_kd_swap pk ctx tl
          cases h1 : honeObjectEntries pk false ctx tl with
          | none =>
              cases h2 : honeObjectEntries pk true ctx tl with
              | none => simp [honeObjectEntries, hs, h1, h2, oswap]
              | some t2 =>
                  rw [h1, h2] at ih
                  simp [oswap] at ih
          | some t1 =>
              cases h2 : honeObjectEntries pk true ctx tl with
              | none =>
                  rw [h1, h2] at ih
                  simp [oswap] at ih
              | some t2 =>
                  rw [h1, h2] at ih
                  simp only [Option.map_some', oswap, Option.some_inj] at ih
                  have hperm : t1.1.Perm (List.map kdSwap t2.1) := by
                    rw [← Multiset.coe_eq_coe]
                    simpa using ih
                  simp [honeObjectEntries, hs, h1, h2, oswap,
                    Multiset.cons_coe, kdSwap]
                  exact hperm

theorem kdSwap_kdSwap (d : KeyDiff) : kdSwap (kdSwap d) = d := rfl

theorem oswap_oswap (x : Option (Multiset KeyDiff)) : oswap (oswap x) = x := by
  rcases x with _ | s <;>
    simp [oswap, Multiset.map_map, Function.comp, kdSwap_kdSwap]

theorem hone_objects_kd_swap (pk : String) (kvs : JsonObj)
    (ctx : WorkingContext) :
    kdMultiset (handle_one_element_null_objects pk (.obj kvs) .null ctx) =
      oswap (kdMultiset
        (handle_one_element_null_objects pk .null (.obj kvs) ctx)) := by
  have h := honeEntries_kd_swap pk ctx kvs.toEntries
  simp only [handle_one_element_null_objects]
  norm_num
  cases h1 : honeObjectEntries pk false ctx kvs.toEntries with
  | none =>
      cases h2 : honeObjectEntries pk true ctx kvs.toEntries with
      | none => simp [h1, h2, kdMultiset, oswap]
      | some t2 =>
          rw [h1, h2] at h
          simp [oswap] at h
  | some t1 =>
      cases h2 : honeObjectEntries pk true ctx kvs.toEntries with
      | none =>
          rw [h1, h2] at h
          simp [oswap] at h
      | some t2 =>
          rw [h1, h2] at h
          simp only [Option.map_some', oswap, Option.some_inj] at h
          simp [h1, h2, kdMultiset, oswap, h]

theorem size_of_mem_toEntries {kvs : JsonObj} {k : String} {v : Json}
    (h : (k, v) ∈ kvs.toEntries) : v.size ≤ kvs.sizeO := by
  induction kvs using JsonObj.entryInduction with
  | nil => simp [JsonObj.toEntries] at h
  | cons k0 v0 tl ih =>
      simp only [JsonObj.toEntries, List.mem_cons, Prod.mk.injEq] at h
      simp only [JsonObj.sizeO]
      rcases h with ⟨-, rfl⟩ | h
      · omega
      · have := ih h
        omega

theorem size_of_mem_toList {xs : JsonList} {x : Json}
    (h : x ∈ xs.toList) : x.size ≤ xs.sizeL := by
  induction xs using JsonList.itemInduction with
  | nil => simp [JsonList.toList] at h
  | cons x0 tl ih =>
      simp only [JsonList.toList, List.mem_cons] at h
      simp only [JsonList.sizeL]
      rcases h with rfl | h
      · omega
      · have := ih h
        omega

theorem wf_of_mem_toList {xs : JsonList} {x : Json}
    (hw : xs.wfItems = true) (h : x ∈ xs.toList) : x.wf = true := by
  induction xs using JsonList.itemInduction with
  | nil => simp [JsonList.toList] at h
  | cons x0 tl ih =>
      simp only [JsonList.wfItems, Bool.and_eq_true] at hw
      simp only [JsonList.toList, List.mem_cons] at h
      rcases h with rfl | h
      · exact hw.1
      · exact ih hw.2 h

theorem walkI_kd_cons (σ : List String → List String) (key : String)
    (i : Nat) (x y : Json) (xtl ytl : JsonList) (ctx : WorkingContext)
    (ord : Bool) :
    kdMultiset (walkSameOrderItems σ key i (.cons x xtl) (.cons y ytl)
        ctx ord) =
      oadd (kdMultiset (compare_field σ (indexPath key i) x y ctx ord))
        (kdMultiset (walkSameOrderItems σ key (i + 1) xtl ytl ctx ord)) := by
  simp only [walkSameOrderItems]
  rcases hf : compare_field σ (indexPath key i) x y ctx ord with _ | f <;>
    rcases hr : walkSameOrderItems σ key (i + 1) xtl ytl ctx ord with _ | r <;>
      simp [kdMultiset, oadd, hf, hr, appendResults, Multiset.coe_add]

theorem sigma_map_coe (σ : List String → List String)
    (hσ : ∀ l : List String, (σ l).Perm l) (l : List String)
    (f : String → KeyDiff) :
    (↑((σ l).map f) : Multiset KeyDiff) = ↑(l.map f) :=
  Multiset.coe_eq_coe.mpr ((hσ l).map f)

theorem walkI_kd_swap (σ : List String → List String) (ctx : WorkingContext)
    (ord : Bool) :
    ∀ (xs ys : JsonList) (key : String) (i : Nat),
      xs.length = ys.length →
      (∀ (key2 : String) (x y : Json), x ∈ xs.toList → y ∈ ys.toList →
        kdMultiset (compare_field σ key2 y x ctx ord) =
          oswap (kdMultiset (compare_field σ key2 x y ctx ord))) →
      kdMultiset (walkSameOrderItems σ key i ys xs ctx ord) =
        oswap (kdMultiset (walkSameOrderItems σ key i xs ys ctx ord))
  | .nil, .nil, key, i, _, _ => by
      simp [walkSameOrderItems, kdMultiset, oswap]
  | .nil, .cons y ytl, key, i, hlen, _ => by
      simp only [JsonList.length] at hlen
      omega
  | .cons x xtl, .nil, key, i, hlen, _ => by
      simp only [JsonList.length] at hlen
      omega
  | .cons x xtl, .cons y ytl, key, i, hlen, hpair => by
      rw [walkI_kd_cons, walkI_kd_cons, oswap_oadd]
      rw [hpair (indexPath key i) x y (by simp [JsonList.toList])
        (by simp [JsonList.toList])]
      rw [walkI_kd_swap σ ctx ord xtl ytl key (i + 1)
        (by simp [JsonList.length] at hlen; omega)
        (fun key2 x2 y2 hx2 hy2 => hpair key2 x2 y2
          (by simp [JsonList.toList, hx2]) (by simp [JsonList.toList, hy2]))]

theorem oswap_coe_map (l : List String) (f : String → KeyDiff) :
    oswap (some ↑(l.map f)) = some ↑(l.map fun k => kdSwap (f k)) := by
  simp only [oswap, Option.map_some', Option.some_inj]
  rw [Multiset.map_coe, List.map_map]
  rfl

theorem swap_core (σ : List String → List String)
    (hσ : ∀ l : List String, (σ l).Perm l) :
    ∀ (n : Nat) (x y : Json), x.size + y.size ≤ n → x.wf = true →
      y.wf = true → ∀ (key : String) (ctx : WorkingContext) (ord : Bool),
      kdMultiset (compare_field σ key y x ctx ord) =
        oswap (kdMultiset (compare_field σ key x y ctx ord)) := by
  intro n
  induction n using Nat.strong_induction_on with
  | _ n IH =>
  intro x y hsize hwx hwy key ctx ord
  cases x with
  | null =>
      cases y with
      | null => simp [compare_field, kdMultiset, oswap]
      | bool c =>
          simp [compare_field, kdMultiset, oswap,
            handle_one_element_null_primitives, Json.asStr]
      | num m =>
          simp [compare_field, kdMultiset, oswap,
            handle_one_element_null_primitives, Json.asStr]
      | str t =>
          simp [compare_field, kdMultiset, oswap,
            handle_one_element_null_primitives, Json.asStr]
      | arr ys =>
          simp only [compare_field, handle_one_element_null_arrays,
            kdMultiset, oswap]
          cases hm : ys.toList.mapM Json.asStr with
          | none => simp
          | some l => simp
      | obj kvs =>
          show kdMultiset (handle_one_element_null_objects key (.obj kvs)
              .null ctx) =
            oswap (kdMultiset (handle_one_element_null_objects key .null
              (.obj kvs) ctx))
          exact hone_objects_kd_swap key kvs ctx
  | bool b1 =>
      cases y with
      | null =>
          simp [compare_field, kdMultiset, oswap,
            handle_one_element_null_primitives, Json.asStr]
      | bool c => simp [compare_field, kdMultiset, oswap]
      | num m => simp [compare_field, kdMultiset, oswap]
      | str t => simp [compare_field, kdMultiset, oswap]
      | arr ys => simp [compare_field, kdMultiset, oswap]
      | obj kvs => simp [compare_field, kdMultiset, oswap]
  | num n1 =>
      cases y with
      | null =>
          simp [compare_field, kdMultiset, oswap,
            handle_one_element_null_primitives, Json.asStr]
      | bool c => simp [compare_field, kdMultiset, oswap]
      | num m => simp [compare_field, kdMultiset, oswap]
      | str t => simp [compare_field, kdMultiset, oswap]
      | arr ys => simp [compare_field, kdMultiset, oswap]
      | obj kvs => simp [compare_field, kdMultiset, oswap]
  | str s1 =>
      cases y with
      | null =>
          simp [compare_field, kdMultiset, oswap,
            handle_one_element_null_primitives, Json.asStr]
      | bool c => simp [compare_field, kdMultiset, oswap]
      | num m => simp [compare_field, kdMultiset, oswap]
      | str t => simp [compare_field, kdMultiset, oswap]
      | arr ys => simp [compare_field, kdMultiset, oswap]
      | obj kvs => simp [compare_field, kdMultiset, oswap]
  | arr xs =>
      cases y with
      | null =>
          simp only [compare_field, handle_one_element_null_arrays,
            kdMultiset, oswap]
          cases hm : xs.toList.mapM Json.asStr with
          | none => simp
          | some l => simp
      | bool c => simp [compare_field, kdMultiset, oswap]
      | num m => simp [compare_field, kdMultiset, oswap]
      | str t => simp [compare_field, kdMultiset, oswap]
      | obj kvs => simp [compare_field, kdMultiset, oswap]
      | arr ys =>
          rw [compare_field_arr, compare_field_arr]
          simp only [compare_arrays]
          have hwxs : xs.wfItems = true := by simpa [Json.wf] using hwx
          have hwys : ys.wfItems = true := by simpa [Json.wf] using hwy
          by_cases hlen : xs.length = ys.length
          · rw [if_pos hlen, if_pos hlen.symm]
            cases ord with
            | true =>
                rw [if_pos rfl, if_pos rfl]
                apply walkI_kd_swap σ ctx true xs ys key 0 hlen
                intro key2 x2 y2 hx2 hy2
                have hs1 := size_of_mem_toList hx2
                have hs2 := size_of_mem_toList hy2
                simp only [Json.size] at hsize
                exact IH (x2.size + y2.size) (by omega) x2 y2 le_rfl
                  (wf_of_mem_toList hwxs hx2) (wf_of_mem_toList hwys hy2)
                  key2 ctx true
            | false =>
                rw [if_neg (by simp), if_neg (by simp)]
                simp [kdMultiset, oswap]
          · rw [if_neg hlen, if_neg (fun h => hlen h.symm)]
            simp [kdMultiset, oswap]
  | obj oa =>
      cases y with
      | null =>
          show kdMultiset (handle_one_element_null_objects key .null
              (.obj oa) ctx) =
            oswap (kdMultiset (handle_one_element_null_objects key (.obj oa)
              .null ctx))
          rw [hone_objects_kd_swap key oa ctx, oswap_oswap]
      | bool c => simp [compare_field, kdMultiset, oswap]
      | num m => simp [compare_field, kdMultiset, oswap]
      | str t => simp [compare_field, kdMultiset, oswap]
      | arr ys => simp [compare_field, kdMultiset, oswap]
      | obj ob =>
          have hwa : oa.wfEntries = true := by simpa [Json.wf] using hwx
          have hwb : ob.wfEntries = true := by simpa [Json.wf] using hwy
          have hselfA : ∀ k v, (k, v) ∈ oa.toEntries → oa.get k = some v :=
            fun k v hm => get_eq_some_of_mem hwa hm
          have hselfB : ∀ k v, (k, v) ∈ ob.toEntries → ob.get k = some v :=
            fun k v hm => get_eq_some_of_mem hwb hm
          have hpair : ∀ k ∈ (oa.keys.filter fun k => ob.keys.contains k),
              ∀ va vb, oa.get k = some va → ob.get k = some vb →
              kdMultiset (compare_field σ (pathJoin key k) vb va ctx ord) =
                oswap (kdMultiset
                  (compare_field σ (pathJoin key k) va vb ctx ord)) := by
            intro k _ va vb hga hgb
            have hs1 := size_of_mem_toEntries (mem_toEntries_of_get hga)
            have hs2 := size_of_mem_toEntries (mem_toEntries_of_get hgb)
            simp only [Json.size] at hsize
            exact IH (va.size + vb.size) (by omega) va vb le_rfl
              (wf_of_mem_toEntries hwa (mem_toEntries_of_get hga))
              (wf_of_mem_toEntries hwb (mem_toEntries_of_get hgb))
              (pathJoin key k) ctx ord
          rw [compare_field_obj, compare_field_obj]
          rw [compare_objects_kd_char, compare_objects_kd_char]
          rw [walk_kd_split σ key ctx ord oa ob ob hselfB]
          rw [walk_kd_split σ key ctx ord ob oa oa hselfA]
          rw [oswap_oadd, oswap_oadd]
          rw [← sharedKdSum_swap σ key ctx ord oa ob
            (oa.keys.filter fun k => ob.keys.contains k) hpair]
          rw [sharedKdSum_perm σ key ctx ord ob oa
            (keys_filter_inter_perm oa ob (wfEntries_keys_nodup hwa)
              (wfEntries_keys_nodup hwb))]
          simp only [remainingBKeyDiffs, oswap, Option.map_some',
            Multiset.map_coe, List.map_map]
          simp only [Function.comp_def, kdSwap]
          rw [show (↑(List.map (fun k => (⟨pathJoin key k,
              ctx.file_b.name, ctx.file_a.name⟩ : KeyDiff))
              (σ (List.filter (fun k => !(ob.keys.contains k)) oa.keys))) :
              Multiset KeyDiff) =
            ↑(List.map (fun k => (⟨pathJoin key k,
              ctx.file_b.name, ctx.file_a.name⟩ : KeyDiff))
              (List.filter (fun k => !(ob.keys.contains k)) oa.keys))
            from sigma_map_coe σ hσ _ _]
          rw [show (↑(List.map (fun k => (⟨pathJoin key k,
              ctx.file_a.name, ctx.file_b.name⟩ : KeyDiff))
              (σ (List.filter (fun k => !(oa.keys.contains k)) ob.keys))) :
              Multiset KeyDiff) =
            ↑(List.map (fun k => (⟨pathJoin key k,
              ctx.file_a.name, ctx.file_b.name⟩ : KeyDiff))
              (List.filter (fun k => !(oa.keys.contains k)) ob.keys))
            from sigma_map_coe σ hσ _ _]
          rw [oadd_assoc, oadd_assoc]
          congr 1
          exact oadd_comm _ _

/-- C7 (amended): the key diffs of compare(B,A) are, as a multiset, exactly
the key diffs of compare(A,B) with the has/misses sides exchanged; in
particular a KeyDiff recording side A as owner in compare(A,B) yields the
corresponding KeyDiff recording side B in compare(B,A).  (Several locations
may collide on one path string, so "no other KeyDiff at that path" fails in
general — see the counterexample.) -/
theorem c7_keydiff_swap_amended (σ : List String → List String)
    (hσ : ∀ l : List String, (σ l).Perm l) (key : String) (a b : JsonObj)
    (ctx : WorkingContext) (ord : Bool) (hwa : Json.wf (.obj a) = true)
    (hwb : Json.wf (.obj b) = true) :
    kdMultiset (compare_objects σ key b a ctx ord) =
        (compare_objects σ key a b ctx ord).map
          (fun r => ((r.1.map kdSwap : List KeyDiff) : Multiset KeyDiff)) ∧
      ∀ r r2 p, compare_objects σ key a b ctx ord = some r →
        compare_objects σ key b a ctx ord = some r2 →
        (⟨p, ctx.file_a.name, ctx.file_b.name⟩ : KeyDiff) ∈ r.1 →
        (⟨p, ctx.file_b.name, ctx.file_a.name⟩ : KeyDiff) ∈ r2.1 := by
  have hcore := swap_core σ hσ ((Json.obj a).size + (Json.obj b).size)
    (.obj a) (.obj b) le_rfl hwa hwb key ctx ord
  rw [compare_field_obj, compare_field_obj] at hcore
  constructor
  · rw [map_kdswap_eq_oswap]
    exact hcore
  · intro r r2 p hr hr2 hmem
    rw [hr, hr2] at hcore
    simp only [kdMultiset, oswap, Option.map_some', Option.some_inj] at hcore
    have : (⟨p, ctx.file_b.name, ctx.file_a.name⟩ : KeyDiff) ∈
        (↑r2.1 : Multiset KeyDiff) := by
      rw [hcore]
      have : (⟨p, ctx.file_b.name, ctx.file_a.name⟩ : KeyDiff) =
          kdSwap ⟨p, ctx.file_a.name, ctx.file_b.name⟩ := rfl
      rw [this]
      exact Multiset.mem_map_of_mem kdSwap (by simpa using hmem)
    simpa using this

/-- C7 witness: the swap theorem applied to A = `"x" ↦ 1, "onlyA" ↦ 2` and
B = `"x" ↦ 1, "onlyB" ↦ 3`. -/
theorem c7_keydiff_swap_amended_witness :
    Json.wf (.obj (.cons "onlyA" (.num 2) (.cons "x" (.num 1) .nil))) = true ∧
      (kdMultiset (compare_objects id ""
            (.cons "onlyB" (.num 3) (.cons "x" (.num 1) .nil))
            (.cons "onlyA" (.num 2) (.cons "x" (.num 1) .nil))
            sampleCtx true) =
          (compare_objects id ""
              (.cons "onlyA" (.num 2) (.cons "x" (.num 1) .nil))
              (.cons "onlyB" (.num 3) (.cons "x" (.num 1) .nil))
              sampleCtx true).map
            (fun r =>
              ((r.1.map kdSwap : List KeyDiff) : Multiset KeyDiff)) ∧
        ∀ r r2 p, compare_objects id ""
              (.cons "onlyA" (.num 2) (.cons "x" (.num 1) .nil))
              (.cons "onlyB" (.num 3) (.cons "x" (.num 1) .nil))
              sampleCtx true = some r →
          compare_objects id ""
              (.cons "onlyB" (.num 3) (.cons "x" (.num 1) .nil))
              (.cons "onlyA" (.num 2) (.cons "x" (.num 1) .nil))
              sampleCtx true = some r2 →
          (⟨p, "a.json", "b.json"⟩ : KeyDiff) ∈ r.1 →
          (⟨p, "b.json", "a.json"⟩ : KeyDiff) ∈ r2.1) :=
  ⟨by decide,
   c7_keydiff_swap_amended id (fun l => List.Perm.refl l) ""
     (.cons "onlyA" (.num 2) (.cons "x" (.num 1) .nil))
     (.cons "onlyB" (.num 3) (.cons "x" (.num 1) .nil))
     sampleCtx true (by decide) (by decide)⟩



/-- Type diffs of an indexed pair's field comparison survive into the
index-wise walk result. -/
theorem walkI_extract (σ : List String → List String) (key : String)
    (ctx : WorkingContext) (ord : Bool) :
    ∀ (xs ys : JsonList) (i0 j : Nat) (r : ComparisionResult) (x y : Json),
      walkSameOrderItems σ key i0 xs ys ctx ord = some r →
      xs.item j = some x → ys.item j = some y →
      ∃ fr, compare_field σ (indexPath key (i0 + j)) x y ctx ord = some fr ∧
        ∀ td ∈ fr.2.1, td ∈ r.2.1
  | .nil, _, _, j, r, x, y, h, hx, hy => by
      simp [JsonList.item] at hx
  | .cons a atl, .nil, i0, j, r, x, y, h, hx, hy => by
      simp [walkSameOrderItems] at h
  | .cons a atl, .cons b btl, i0, 0, r, x, y, h, hx, hy => by
      simp only [JsonList.item, Option.some_inj] at hx hy
      subst hx; subst hy
      simp only [walkSameOrderItems, Option.bind_eq_bind, Option.bind_eq_some,
        Option.pure_def, Option.some_inj] at h
      obtain ⟨field, hfield, rest, hrest, hr⟩ := h
      subst hr
      exact ⟨field, by simpa using hfield, fun td htd => by
        simp [appendResults, htd]⟩
  | .cons a atl, .cons b btl, i0, j + 1, r, x, y, h, hx, hy => by
      simp only [JsonList.item] at hx hy
      simp only [walkSameOrderItems, Option.bind_eq_bind, Option.bind_eq_some,
        Option.pure_def, Option.some_inj] at h
      obtain ⟨field, hfield, rest, hrest, hr⟩ := h
      subst hr
      obtain ⟨fr, hfr, hsub⟩ :=
        walkI_extract σ key ctx ord atl btl (i0 + 1) j rest x y hrest hx hy
      refine ⟨fr, ?_, fun td htd => by simp [appendResults, hsub td htd]⟩
      rw [show i0 + (j + 1) = i0 + 1 + j by omega]
      exact hfr

/-- Along a chain of object keys and index-wise-compared array indices that
is aligned on both sides, a non-null type mismatch at the end of the chain
yields a TypeDiff at the chain's rendered path. -/
theorem compare_field_step_chain (σ : List String → List String)
    (ctx : WorkingContext) :
    ∀ (p : List PathStep) (key : String) (a b : Json) (ord : Bool)
      (r : ComparisionResult) (va vb : Json),
      compare_field σ key a b ctx ord = some r →
      alignedSteps ord a b p = true →
      a.lookupSteps p = some va → b.lookupSteps p = some vb →
      va ≠ .null → vb ≠ .null → get_type va ≠ get_type vb →
      (⟨renderSteps key p, (get_type va).render, (get_type vb).render⟩ :
          TypeDiff) ∈ r.2.1
  | [], key, a, b, ord, r, va, vb, h, _, hla, hlb, hna, hnb, hty => by
      simp only [Json.lookupSteps, Option.some_inj] at hla hlb
      subst hla; subst hlb
      rw [compare_field_mismatch σ key ctx ord a b hna hnb hty] at h
      obtain rfl := Option.some_inj.mp h.symm
      simp [renderSteps, handle_different_types]
  | .key k :: rest, key, a, b, ord, r, va, vb,
      h, hal, hla, hlb, hna, hnb, hty => by
      cases a with
      | obj oa =>
          cases b with
          | obj ob =>
              cases hga : oa.get k with
              | none =>
                  simp [alignedSteps, hga] at hal
              | some va1 =>
                  cases hgb : ob.get k with
                  | none => simp [alignedSteps, hga, hgb] at hal
                  | some vb1 =>
                      simp only [alignedSteps, hga, hgb] at hal
                      simp only [Json.lookupSteps, hga] at hla
                      simp only [Json.lookupSteps, hgb] at hlb
                      rw [compare_field_obj] at h
                      obtain ⟨w, hw, hw21⟩ :=
                        compare_objects_extract σ key ctx ord h
                      obtain ⟨fr, hfr, hsub⟩ :=
                        walkAEntries_extract σ key ctx ord hw
                          (mem_toEntries_of_get hga) hgb
                      have hmem :=
                        compare_field_step_chain σ ctx rest (pathJoin key k)
                          va1 vb1 ord fr va vb hfr hal hla hlb hna hnb hty
                      rw [← hw21]
                      exact hsub _ hmem
          | null => simp [alignedSteps] at hal
          | str s => simp [alignedSteps] at hal
          | num n => simp [alignedSteps] at hal
          | bool c => simp [alignedSteps] at hal
          | arr ys => simp [alignedSteps] at hal
      | null => simp [alignedSteps] at hal
      | str s => simp [alignedSteps] at hal
      | num n => simp [alignedSteps] at hal
      | bool c => simp [alignedSteps] at hal
      | arr xs => cases b <;> simp [alignedSteps] at hal
  | .idx i :: rest, key, a, b, ord, r, va, vb,
      h, hal, hla, hlb, hna, hnb, hty => by
      cases a with
      | arr xs =>
          cases b with
          | arr ys =>
              simp only [alignedSteps, Bool.and_eq_true, beq_iff_eq] at hal
              obtain ⟨⟨hord, hlen⟩, hrest⟩ := hal
              subst hord
              cases hxi : xs.item i with
              | none => rw [hxi] at hrest; cases ys.item i <;> simp at hrest
              | some x =>
                  cases hyi : ys.item i with
                  | none => rw [hxi, hyi] at hrest; simp at hrest
                  | some y =>
                      rw [hxi, hyi] at hrest
                      simp only [Json.lookupSteps, hxi] at hla
                      simp only [Json.lookupSteps, hyi] at hlb
                      rw [compare_field_arr] at h
                      rw [compare_arrays, if_pos hlen, if_pos rfl] at h
                      obtain ⟨fr, hfr, hsub⟩ :=
                        walkI_extract σ key ctx true xs ys 0 i r x y h hxi hyi
                      rw [Nat.zero_add] at hfr
                      have hmem :=
                        compare_field_step_chain σ ctx rest (indexPath key i)
                          x y true fr va vb hfr hrest hla hlb hna hnb hty
                      exact hsub _ hmem
          | null => simp [alignedSteps] at hal
          | str s => simp [alignedSteps] at hal
          | num n => simp [alignedSteps] at hal
          | bool c => simp [alignedSteps] at hal
          | obj ob => simp [alignedSteps] at hal
      | null => simp [alignedSteps] at hal
      | str s => simp [alignedSteps] at hal
      | num n => simp [alignedSteps] at hal
      | bool c => simp [alignedSteps] at hal
      | obj oa => cases b <;> simp [alignedSteps] at hal

/-- C8 (amended): the type checker recurses only through matching parents —
objects on both sides, or arrays compared index-wise (same order requested
and equal lengths).  Below such matching ancestors, along any aligned chain
of object keys and array indices, a pair present on both sides with
differing non-null types yields a TypeDiff at the chain's rendered path. -/
theorem c8_nested_mismatch_amended (σ : List String → List String)
    (key : String) (a b : JsonObj) (ctx : WorkingContext) (ord : Bool)
    (p : List PathStep) (r : ComparisionResult) (va vb : Json)
    (h : compare_objects σ key a b ctx ord = some r)
    (hal : alignedSteps ord (.obj a) (.obj b) p = true)
    (hla : Json.lookupSteps (.obj a) p = some va)
    (hlb : Json.lookupSteps (.obj b) p = some vb)
    (hna : va ≠ .null) (hnb : vb ≠ .null)
    (hty : get_type va ≠ get_type vb) :
    (⟨renderSteps key p, (get_type va).render, (get_type vb).render⟩ :
        TypeDiff) ∈ r.2.1 := by
  rw [← compare_field_obj] at h
  exact compare_field_step_chain σ ctx p key (.obj a) (.obj b) ord r va vb
    h hal hla hlb hna hnb hty

/-- C8 witness: A = the map "p" ↦ [1] against B = the map "p" ↦ ["s"], with
same-order requested; down the chain key "p", index 0 the number/string
mismatch yields the TypeDiff at "p[0]". -/
theorem c8_nested_mismatch_amended_witness :
    compare_objects id "" (.cons "p" (.arr (.cons (.num 1) .nil)) .nil)
        (.cons "p" (.arr (.cons (.str "s") .nil)) .nil) sampleCtx true =
      some ([], [⟨"p[0]", "number", "string"⟩], [], []) ∧
    (⟨renderSteps "" [PathStep.key "p", PathStep.idx 0],
        (get_type (.num 1)).render, (get_type (.str "s")).render⟩ :
      TypeDiff) ∈
      (([], [(⟨"p[0]", "number", "string"⟩ : TypeDiff)], [], []) :
        ComparisionResult).2.1 :=
  ⟨by decide,
   c8_nested_mismatch_amended id ""
     (.cons "p" (.arr (.cons (.num 1) .nil)) .nil)
     (.cons "p" (.arr (.cons (.str "s") .nil)) .nil) sampleCtx true
     [PathStep.key "p", PathStep.idx 0]
     ([], [⟨"p[0]", "number", "string"⟩], [], []) (.num 1) (.str "s")
     (by decide) (by decide) (by decide) (by decide) (by decide) (by decide)
     (by decide)⟩
